import Mathlib

/-!
# Verification development for `cache/ensurespacer.go`

Shallow embedding of `ensureSpacer.EnsureSpace` and `purge`, followed by the
theorems that settle the specification's claims.

Conventions of the embedding:

* `int64` values are integers of the range `MinInt64 .. MaxInt64`; the `int64`
  operations of the source (`+`, `-`, unary `-`, `+=`) wrap around modulo
  `2 ^ 64` (`add64`, `sub64`, `neg64`).
* A `float64` is a finite binary fraction `mant * 2 ^ expo`, an infinity or
  NaN; conversion from `int64` and multiplication of finite values round to
  nearest, ties to even, on a 53-bit significand, as IEEE 754 does inside the
  normal exponent range.
* What Go leaves to the implementation is a parameter `Runtime`: the order
  `sort.Slice` gives to entries that compare equal, and the result of
  `int64(f)` when `f` is outside the `int64` range or not finite.  The general
  theorems hold for every runtime; concrete evaluations use `amd64`.
* The file system is explicit state: the children of the cache directory,
  whether opening/listing fails, and which paths `os.Remove` refuses.
* The mutex only serialises concurrent callers; a call is modelled as one
  atomic step on the guard state `isPurging`.
-/

namespace cache

/-! ## int64 -/

/-- The constant `math.MinInt64`, `-2 ^ 63`. -/
def MinInt64 : Int := -9223372036854775808

/-- The constant `math.MaxInt64`, `2 ^ 63 - 1`. -/
def MaxInt64 : Int := 9223372036854775807

/-- The integer `x` is an `int64` value. -/
def inInt64 (x : Int) : Prop := MinInt64 ≤ x ∧ x ≤ MaxInt64

instance (x : Int) : Decidable (inInt64 x) :=
  inferInstanceAs (Decidable (MinInt64 ≤ x ∧ x ≤ MaxInt64))

/-- Reduction of an integer to the `int64` value congruent to it modulo
`2 ^ 64`: what an `int64` operation keeps of its mathematical result. -/
def wrap64 (x : Int) : Int :=
  (x + 9223372036854775808) % 18446744073709551616 - 9223372036854775808

/-- Go `a + b` on `int64`. -/
def add64 (a b : Int) : Int := wrap64 (a + b)

/-- Go `a - b` on `int64`. -/
def sub64 (a b : Int) : Int := wrap64 (a - b)

/-- Go `-a` on `int64`. -/
def neg64 (a : Int) : Int := wrap64 (-a)

/-! ## float64 -/

/-- A finite `float64` value, `mant * 2 ^ expo`. -/
structure F64 where
  mant : Int
  expo : Int
deriving DecidableEq, Repr

namespace F64

/-- Number of low bits that must be dropped for `a` to fit a 53-bit
significand: the least `s` with `a / 2 ^ s < 2 ^ 53` (for `fuel` large
enough, `fuel = a` always is). -/
def excess : Nat → Nat → Nat
  | 0, _ => 0
  | fuel + 1, a => if a < 2 ^ 53 then 0 else excess fuel (a / 2) + 1

/-- Round `m * 2 ^ e` to nearest, ties to even, on a 53-bit significand. -/
def round (m e : Int) : F64 :=
  let a := m.natAbs
  let s := excess a a
  let q := a / 2 ^ s
  let r := a % 2 ^ s
  let half := 2 ^ (s - 1)
  let up : Bool := s ≠ 0 ∧ (half < r ∨ (r = half ∧ q % 2 = 1))
  ⟨m.sign * ((if up then q + 1 else q : Nat) : Int), e + s⟩

/-- Go conversion `float64(x)` of an `int64`. -/
def ofInt (x : Int) : F64 := round x 0

/-- Go `a * b` on `float64`: the exact product, rounded. -/
def mul (a b : F64) : F64 := round (a.mant * b.mant) (a.expo + b.expo)

/-- The integer part of a `float64`: its value truncated toward zero. -/
def trunc (f : F64) : Int :=
  if 0 ≤ f.expo then f.mant * 2 ^ f.expo.toNat
  else Int.tdiv f.mant (2 ^ (-f.expo).toNat)

/-- Go conversion `int64(f)`: truncation toward zero when the result is an
`int64`; otherwise the result is implementation-dependent, here `big`. -/
def toInt64 (big : Int → Int) (f : F64) : Int :=
  if inInt64 (trunc f) then trunc f else big (trunc f)

/-- The real number a finite `float64` denotes. -/
def toRat (f : F64) : ℚ := (f.mant : ℚ) * 2 ^ f.expo

end F64

/-- A Go `float64`: a finite value, `+Inf`, `-Inf` or NaN. -/
inductive Float64 where
  | finite (f : F64)
  | posInf
  | negInf
  | nan
deriving DecidableEq, Repr

/-- Go `x * y` for a finite `x` (here always `float64(maxSize)`) and any
`float64` `y`. -/
def Float64.scale (x : F64) : Float64 → Float64
  | .finite y => .finite (F64.mul x y)
  | .posInf => if 0 < x.mant then .posInf else if x.mant < 0 then .negInf else .nan
  | .negInf => if 0 < x.mant then .negInf else if x.mant < 0 then .posInf else .nan
  | .nan => .nan

/-! ## File system -/

/-- An `os.FileInfo` of the directory listing, with the access time
`atime.Get` reads from it (an instant, in nanoseconds). -/
structure FileInfo where
  name : String
  /-- the result of `Size()`: a length in bytes, never negative -/
  size : Nat
  atime : Int
deriving DecidableEq, Repr

/-- The part of the file system `purge` touches. -/
structure FS where
  /-- children of the cache directory -/
  files : List FileInfo
  /-- whether `os.Open(dir)` returns an error -/
  openErr : Bool
  /-- whether `d.Readdir(-1)` returns an error -/
  readdirErr : Bool
  /-- the paths for which `os.Remove(path)` returns an error -/
  removeErr : String → Bool

/-- The constant `os.PathSeparator`. -/
def PathSeparator : Char := '/'

/-- The path `fmt.Sprintf("%s%c%s", dir, os.PathSeparator, name)`. -/
def joinPath (dir name : String) : String :=
  dir ++ String.singleton PathSeparator ++ name

/-- The comparison passed to `sort.Slice`:
`atime.Get(files[i]).Before(atime.Get(files[j]))`. -/
def less (a b : FileInfo) : Prop := a.atime < b.atime

instance : DecidableRel less := fun a b => inferInstanceAs (Decidable (a.atime < b.atime))

/-! ## What the Go implementation decides -/

/-- The implementation-dependent behaviour the source relies on.
`sortSlice` is the call `sort.Slice(files, less)`: some rearrangement of the
listing in which no later element is `less` than an earlier one (the order of
entries that compare equal is not specified, `sort.Slice` is not stable).
`int64OfBig t` is the result of `int64(f)` for a finite `f` whose integer
part `t` is not an `int64`, and `int64OfNonFinite f` that of `int64(f)` for an
infinite or NaN `f`. -/
structure Runtime where
  sortSlice : List FileInfo → List FileInfo
  sortSlice_perm : ∀ files, (sortSlice files).Perm files
  sortSlice_sorted : ∀ files, (sortSlice files).Pairwise (fun a b => ¬ less b a)
  int64OfBig : Int → Int
  int64OfNonFinite : Float64 → Int

/-- One admissible `sort.Slice`: insertion by access time. -/
def insertionSlice (files : List FileInfo) : List FileInfo :=
  files.insertionSort (fun a b => ¬ less b a)

/-- The runtime used for concrete evaluations.  An `int64(f)` of an
out-of-range, infinite or NaN `f` is `MinInt64`, as the gc compiler gives on
amd64.  `sortSlice` is insertion by
access time; on a listing without equal access times, the only kind evaluated
below, every admissible `sort.Slice` returns the same order
(`sortSlice_unique`). -/
def amd64 : Runtime where
  sortSlice := insertionSlice
  sortSlice_perm := fun files => List.perm_insertionSort _ files
  sortSlice_sorted := fun files => by
    haveI : IsTotal FileInfo (fun a b => ¬ less b a) :=
      ⟨fun a b => by
        simp only [less, not_lt]
        exact le_total a.atime b.atime⟩
    haveI : IsTrans FileInfo (fun a b => ¬ less b a) :=
      ⟨fun a b c hab hbc => by
        simp only [less, not_lt] at hab hbc ⊢
        exact le_trans hab hbc⟩
    exact List.sorted_insertionSort _ files
  int64OfBig := fun _ => MinInt64
  int64OfNonFinite := fun _ => MinInt64

/-- Go conversion `int64(f)` of any `float64`. -/
def Float64.toInt64 (rt : Runtime) : Float64 → Int
  | .finite f => F64.toInt64 rt.int64OfBig f
  | f => rt.int64OfNonFinite f

/-- The expression `int64(float64(maxSize) * pct)` of `EnsureSpace`. -/
def pctBytes (rt : Runtime) (maxSize : Int) (pct : Float64) : Int :=
  (Float64.scale (F64.ofInt maxSize) pct).toInt64 rt

/-! ## The Evictor -/

/-- The `for _, fileinfo := range files` loop of `purge`, started with the
running total `purgedBytes`.  Returns the final total and the `os.Remove`
calls made, in order, each with whether it succeeded. -/
def purgeLoop (fs : FS) (dir : String) (deltaBytes : Int) :
    List FileInfo → Int → Int × List (FileInfo × Bool)
  | [], purgedBytes => (purgedBytes, [])
  | fileinfo :: rest, purgedBytes =>
    let path := joinPath dir fileinfo.name
    let err := fs.removeErr path
    let purgedBytes := if err then purgedBytes else add64 purgedBytes (fileinfo.size : Int)
    if purgedBytes ≥ deltaBytes then (purgedBytes, [(fileinfo, !err)])
    else
      let r := purgeLoop fs dir deltaBytes rest purgedBytes
      (r.1, (fileinfo, !err) :: r.2)

/-- The function `purge(dir, deltaBytes)`: its return value and the
`os.Remove` calls it made. -/
def purge (rt : Runtime) (fs : FS) (dir : String) (deltaBytes : Int) :
    Int × List (FileInfo × Bool) :=
  if fs.openErr then (0, [])
  else if fs.readdirErr then (0, [])
  else purgeLoop fs dir deltaBytes (rt.sortSlice fs.files) 0

/-- Entries on which `os.Remove` was called. -/
def attempted (log : List (FileInfo × Bool)) : List FileInfo := log.map Prod.fst

/-- Entries whose `os.Remove` succeeded. -/
def deleted (log : List (FileInfo × Bool)) : List FileInfo :=
  (log.filter Prod.snd).map Prod.fst

/-- Total size in bytes of a list of entries, as a mathematical sum. -/
def sizeSum (l : List FileInfo) : Int := (l.map (fun f => (f.size : Int))).sum

/-- The value of the variable `purgedBytes` after the `os.Remove` calls of
`log`, starting from `start`: each successful removal adds the entry's size,
in `int64`. -/
def runningTotal (start : Int) (log : List (FileInfo × Bool)) : Int :=
  log.foldl (fun p x => if x.2 then add64 p (x.1.size : Int) else p) start

/-- The file system after the `os.Remove` calls of `log`. -/
def FS.after (fs : FS) (log : List (FileInfo × Bool)) : FS :=
  { fs with files := fs.files.filter (fun f => f ∉ deleted log) }

/-! ## Cache contract and Space Guard -/

/-- Modelled from the spec: the `Cache` interface, declared outside this file.
It exposes `CurrSize()`, `MaxSize()`, `Dir()` and `AddCurrSize(delta)`, which
adjusts the tracked current size by `delta` (an `int64` addition).  `addCalls`
records the arguments of the `AddCurrSize` calls made so far. -/
structure Cache where
  currSize : Int
  maxSize : Int
  dir : String
  addCalls : List Int

namespace Cache

/-- The method `CurrSize()`. -/
def CurrSize (c : Cache) : Int := c.currSize
/-- The method `MaxSize()`. -/
def MaxSize (c : Cache) : Int := c.maxSize
/-- The method `Dir()`. -/
def Dir (c : Cache) : String := c.dir
/-- The method `AddCurrSize(delta)`. -/
def AddCurrSize (c : Cache) (delta : Int) : Cache :=
  { c with currSize := add64 c.currSize delta, addCalls := c.addCalls ++ [delta] }

end Cache

/-- The struct `ensureSpacer` (the mutex carries no data). -/
structure ensureSpacer where
  triggerPct : Float64
  targetPct : Float64
  isPurging : Bool

/-- The constructor `NewEnsureSpacer`. -/
def NewEnsureSpacer (triggerPct targetPct : Float64) : ensureSpacer :=
  ⟨triggerPct, targetPct, false⟩

/-- What a call of `EnsureSpace` leaves behind. -/
structure Result where
  /-- the returned boolean -/
  ret : Bool
  /-- the guard after the call -/
  spacer : ensureSpacer
  /-- the cache after the call -/
  cache : Cache
  /-- the file system after the call -/
  fs : FS
  /-- the `os.Remove` calls of the call, in order, with their success -/
  removes : List (FileInfo × Bool)

/-- The method `(e *ensureSpacer) EnsureSpace(cache, addBytes)`. -/
def EnsureSpace (rt : Runtime) (e : ensureSpacer) (cache : Cache) (fs : FS)
    (addBytes : Int) : Result :=
  let shouldPurge : Bool :=
    add64 cache.CurrSize addBytes ≥ pctBytes rt cache.MaxSize e.triggerPct
  if !shouldPurge then
    ⟨true, e, cache, fs, []⟩
  else
    let shouldPurge : Bool :=
      add64 cache.CurrSize addBytes ≥ pctBytes rt cache.MaxSize e.triggerPct
    if !shouldPurge || e.isPurging then
      let enoughSpace : Bool := add64 cache.CurrSize addBytes ≤ cache.MaxSize
      ⟨enoughSpace, e, cache, fs, []⟩
    else
      let e1 := { e with isPurging := true }
      let targetBytes := pctBytes rt cache.MaxSize e.targetPct
      let deltaBytes := sub64 cache.CurrSize targetBytes
      let p := purge rt fs cache.Dir deltaBytes
      let purgedBytes := p.1
      let cache1 := cache.AddCurrSize (neg64 purgedBytes)
      let e2 := { e1 with isPurging := false }
      ⟨add64 cache1.CurrSize addBytes ≤ cache1.MaxSize, e2, cache1, fs.after p.2, p.2⟩

/-! ## Concrete inputs used below -/

/-- The float64 nearest to 0.9. -/
def f0_9 : F64 := ⟨8106479329266893, -53⟩
/-- The float64 0.5. -/
def f0_5 : F64 := ⟨1, -1⟩
/-- The float64 0.25. -/
def f0_25 : F64 := ⟨1, -2⟩
/-- The float64 1.0. -/
def f1_0 : F64 := ⟨1, 0⟩

/-- A guard with finite thresholds and no pass in flight. -/
def spacerOf (triggerPct targetPct : F64) : ensureSpacer :=
  NewEnsureSpacer (.finite triggerPct) (.finite targetPct)

/-- A file system in which listing works and every `os.Remove` succeeds. -/
def okFS (files : List FileInfo) : FS := ⟨files, false, false, fun _ => false⟩

/-- One 100-byte file. -/
def oneFile : List FileInfo := [⟨"a", 100, 1⟩]

/-- Two 100-byte files, `a` accessed before `b`. -/
def twoFiles : List FileInfo := [⟨"b", 100, 2⟩, ⟨"a", 100, 1⟩]

/-- Five 100-byte files, listed out of access-time order. -/
def fiveFiles : List FileInfo :=
  [⟨"c", 100, 3⟩, ⟨"a", 100, 1⟩, ⟨"e", 100, 5⟩, ⟨"b", 100, 2⟩, ⟨"d", 100, 4⟩]

/-- Two files of `2 ^ 62` bytes each (sparse files can be that long). -/
def hugeFiles : List FileInfo :=
  [⟨"a", 4611686018427387904, 1⟩, ⟨"b", 4611686018427387904, 2⟩]

/-- The two-file directory in which removing the older file `a` fails. -/
def stuckFS : FS := ⟨twoFiles, false, false, fun p => p == "/cache/a"⟩

/-- A directory whose listing cannot be read. -/
def unreadableFS : FS := ⟨fiveFiles, true, false, fun _ => false⟩

/-- The guard of the spec's scenarios: trigger 0.9, target 0.5. -/
def scenarioSpacer : ensureSpacer := spacerOf f0_9 f0_5

/-- The same guard while a pass is in flight. -/
def busySpacer : ensureSpacer := { scenarioSpacer with isPurging := true }

/-- A maximum size of `2 ^ 54 + 6` bytes, which `float64` rounds up by 2. -/
def hugeMax : Int := 18014398509481990

/-- A cache of maximum size `hugeMax` currently holding `2 ^ 54` bytes. -/
def hugeCache : Cache := ⟨18014398509481984, hugeMax, "/cache", []⟩

/-- A cache of maximum size `2 ^ 53 + 1`, the first size that `float64` cannot
hold, currently holding `2 ^ 53` bytes. -/
def oddCache : Cache := ⟨9007199254740992, 9007199254740993, "/cache", []⟩

/-- An empty cache of maximum size `MaxInt64`. -/
def maxCache : Cache := ⟨0, MaxInt64, "/cache", []⟩

/-! ## Basic facts about the embedding -/

theorem wrap64_of_inInt64 (x : Int) (h : inInt64 x) : wrap64 x = x := by
  simp only [inInt64, MinInt64, MaxInt64] at h
  unfold wrap64
  omega

theorem inInt64_wrap64 (x : Int) : inInt64 (wrap64 x) := by
  simp only [inInt64, MinInt64, MaxInt64]
  unfold wrap64
  omega

/-! ## Rounding and truncation against integer bounds -/

namespace F64

theorem excess_eq_zero_of_lt (fuel a : Nat) (h : a < 2 ^ 53) : excess fuel a = 0 := by
  cases fuel with
  | zero => rfl
  | succ n => simp only [excess, if_pos h]

/-- With fuel `fuel`, `excess` brings every `a < 2 ^ 53 * 2 ^ fuel` below
`2 ^ 53`. -/
theorem excess_upper : ∀ (fuel a : Nat), a < 2 ^ 53 * 2 ^ fuel →
    a / 2 ^ excess fuel a < 2 ^ 53
  | 0, a, h => by simpa [excess] using h
  | fuel + 1, a, h => by
    by_cases ha : a < 2 ^ 53
    · simp only [excess, if_pos ha]
      simpa using ha
    · have hs : excess (fuel + 1) a = excess fuel (a / 2) + 1 := by
        simp only [excess, if_neg ha]
      have hp : 2 ^ (excess fuel (a / 2) + 1) = 2 * 2 ^ excess fuel (a / 2) := pow_succ' _ _
      rw [hs, hp, ← Nat.div_div_eq_div_mul]
      apply excess_upper fuel (a / 2)
      apply Nat.div_lt_of_lt_mul
      calc a < 2 ^ 53 * 2 ^ (fuel + 1) := h
        _ = 2 * (2 ^ 53 * 2 ^ fuel) := by ring

/-- The fuel `a` that `round` passes is enough: the significand kept has at
most 53 bits. -/
theorem excess_self_upper (a : Nat) : a / 2 ^ excess a a < 2 ^ 53 := by
  apply excess_upper
  calc a < 2 ^ a := Nat.lt_two_pow a
    _ = 1 * 2 ^ a := (one_mul _).symm
    _ ≤ 2 ^ 53 * 2 ^ a := Nat.mul_le_mul_right _ (by norm_num)

theorem excess_lower : ∀ (fuel a : Nat), excess fuel a ≠ 0 →
    2 ^ 52 ≤ a / 2 ^ excess fuel a
  | 0, a, h => absurd rfl h
  | fuel + 1, a, h => by
    have ha : ¬ a < 2 ^ 53 := fun hlt => h (excess_eq_zero_of_lt _ a hlt)
    have hs : excess (fuel + 1) a = excess fuel (a / 2) + 1 := by
      simp only [excess, if_neg ha]
    have hp : 2 ^ (excess fuel (a / 2) + 1) = 2 * 2 ^ excess fuel (a / 2) := pow_succ' _ _
    rw [hs, hp, ← Nat.div_div_eq_div_mul]
    by_cases hs' : excess fuel (a / 2) = 0
    · rw [hs']
      norm_num at ha ⊢
      omega
    · exact excess_lower fuel (a / 2) hs'

theorem zpow_neg_le_iff (x y : Int) (k : Nat) :
    (x : ℚ) * 2 ^ (-(k : Int)) ≤ y ↔ x ≤ y * 2 ^ k := by
  rw [zpow_neg, zpow_natCast, ← div_eq_mul_inv, div_le_iff₀ (by positivity)]
  exact_mod_cast Iff.rfl

theorem zpow_neg_ge_iff (x y : Int) (k : Nat) :
    (y : ℚ) ≤ (x : ℚ) * 2 ^ (-(k : Int)) ↔ y * 2 ^ k ≤ x := by
  rw [zpow_neg, zpow_natCast, ← div_eq_mul_inv, le_div_iff₀ (by positivity)]
  exact_mod_cast Iff.rfl

/-- Truncation does not exceed an integer bound on the value. -/
theorem trunc_le (f : F64) (N : Int) (hm : 0 ≤ f.mant) (h : f.toRat ≤ N) :
    f.trunc ≤ N := by
  unfold trunc
  unfold toRat at h
  split_ifs with he
  · have : f.expo = (f.expo.toNat : Int) := (Int.toNat_of_nonneg he).symm
    rw [this, zpow_natCast] at h
    exact_mod_cast h
  · have : f.expo = -(((-f.expo).toNat : Nat) : Int) := by
      rw [Int.toNat_of_nonneg (by omega)]; ring
    rw [this, zpow_neg_le_iff] at h
    rw [Int.tdiv_eq_ediv hm (by positivity)]
    exact Int.ediv_le_of_le_mul (by positivity) h

/-- Truncation keeps every integer that the value reaches. -/
theorem le_trunc (f : F64) (N : Int) (hm : 0 ≤ f.mant) (h : (N : ℚ) ≤ f.toRat) :
    N ≤ f.trunc := by
  unfold trunc
  unfold toRat at h
  split_ifs with he
  · have : f.expo = (f.expo.toNat : Int) := (Int.toNat_of_nonneg he).symm
    rw [this, zpow_natCast] at h
    exact_mod_cast h
  · have : f.expo = -(((-f.expo).toNat : Nat) : Int) := by
      rw [Int.toNat_of_nonneg (by omega)]; ring
    rw [this, zpow_neg_ge_iff] at h
    rw [Int.tdiv_eq_ediv hm (by positivity)]
    exact Int.le_ediv_of_mul_le (by positivity) h

theorem round_natCast (a : Nat) (e : Int) :
    round (a : Int) e =
      ⟨((if excess a a ≠ 0 ∧ (2 ^ (excess a a - 1) < a % 2 ^ excess a a ∨
            (a % 2 ^ excess a a = 2 ^ (excess a a - 1) ∧ a / 2 ^ excess a a % 2 = 1))
          then a / 2 ^ excess a a + 1 else a / 2 ^ excess a a : Nat) : Int),
        e + excess a a⟩ := by
  unfold round
  simp only [Int.natAbs_ofNat]
  congr 1
  rcases Nat.eq_zero_or_pos a with h0 | hpos
  · subst h0
    simp [excess]
  · rw [Int.sign_natCast_of_ne_zero (Nat.pos_iff_ne_zero.mp hpos), one_mul]
    simp

/-- Values that fit the significand are not changed by rounding. -/
theorem round_exact (m e : Int) (h : m.natAbs < 2 ^ 53) : round m e = ⟨m, e⟩ := by
  have hz : excess m.natAbs m.natAbs = 0 := by
    generalize m.natAbs = a at h
    cases a with
    | zero => rfl
    | succ n => simp only [excess, if_pos h]
  unfold round
  simp only [hz]
  simp [Int.sign_mul_abs]

theorem round_down_bound (q r s : Nat) (e N : Int)
    (h : ((q * 2 ^ s + r : Nat) : ℚ) * 2 ^ e ≤ N) :
    (q : ℚ) * 2 ^ (e + (s : Int)) ≤ N := by
  have h2pos : (0 : ℚ) < 2 ^ e := by positivity
  refine le_trans ?_ h
  rw [zpow_add₀ (by norm_num : (2 : ℚ) ≠ 0), zpow_natCast]
  push_cast
  have hr : (0 : ℚ) ≤ (r : ℚ) := Nat.cast_nonneg r
  nlinarith [mul_nonneg hr h2pos.le]

theorem round_up_bound (q r s : Nat) (e N : Int) (hq : 2 ^ 52 ≤ q) (hr : 0 < r)
    (hN : N ≤ 2 ^ 53) (h : ((q * 2 ^ s + r : Nat) : ℚ) * 2 ^ e ≤ N) :
    ((q + 1 : Nat) : ℚ) * 2 ^ (e + (s : Int)) ≤ N := by
  have h2pos : (0 : ℚ) < 2 ^ e := by positivity
  have hrq : (0 : ℚ) < (r : ℚ) := by exact_mod_cast hr
  -- the exact value lies strictly above the truncated significand
  have hlt : (q : ℚ) * 2 ^ (e + (s : Int)) < N := by
    refine lt_of_lt_of_le ?_ h
    rw [zpow_add₀ (by norm_num : (2 : ℚ) ≠ 0), zpow_natCast]
    push_cast
    nlinarith [mul_pos hrq h2pos]
  have hexp : e + (s : Int) ≤ 0 := by
    by_contra hcon
    obtain ⟨k, hk⟩ := Int.eq_ofNat_of_zero_le (by omega : 0 ≤ e + (s : Int) - 1)
    have hek : e + (s : Int) = ((k + 1 : Nat) : Int) := by push_cast; omega
    rw [hek, zpow_natCast] at hlt
    have h1 : (N : ℚ) ≤ 2 ^ 53 := by exact_mod_cast hN
    have h2 : ((2 : ℚ) ^ 52) ≤ (q : ℚ) := by exact_mod_cast hq
    have h3 : (2 : ℚ) ≤ 2 ^ (k + 1) := by
      rw [pow_succ']
      have : (1 : ℚ) ≤ 2 ^ k := one_le_pow₀ (by norm_num)
      linarith
    have h4 : ((2 : ℚ) ^ 52) * 2 ≤ (q : ℚ) * 2 ^ (k + 1) :=
      mul_le_mul h2 h3 (by norm_num) (by positivity)
    norm_num at h4 h1
    linarith
  obtain ⟨t, ht⟩ := Int.eq_ofNat_of_zero_le (by omega : 0 ≤ -(e + (s : Int)))
  have het : e + (s : Int) = -(t : Int) := by omega
  have he : e = -((t + s : Nat) : Int) := by push_cast; omega
  have hgoal : (((q + 1 : Nat) : Int) : ℚ) * 2 ^ (-(t : Int)) ≤ N := by
    rw [zpow_neg_le_iff]
    have h' : (((q * 2 ^ s + r : Nat) : Int) : ℚ) * 2 ^ (-((t + s : Nat) : Int)) ≤ N := by
      rw [← he]; simpa using h
    rw [zpow_neg_le_iff] at h'
    -- now everything is about integers
    have h6 : (q : Int) * 2 ^ s < N * 2 ^ t * 2 ^ s := by
      have h7 : (q : Int) * 2 ^ s < ((q * 2 ^ s + r : Nat) : Int) := by
        push_cast
        have : (0 : Int) < (r : Int) := by exact_mod_cast hr
        linarith
      rw [mul_assoc, ← pow_add]
      exact lt_of_lt_of_le h7 h'
    have hq1 : (q : Int) < N * 2 ^ t := lt_of_mul_lt_mul_right h6 (by positivity)
    push_cast
    omega
  rw [het]
  simpa using hgoal

theorem round_le (m e N : Int) (hm : 0 ≤ m) (hN : N ≤ 2 ^ 53)
    (h : (m : ℚ) * 2 ^ e ≤ N) :
    0 ≤ (round m e).mant ∧ (round m e).toRat ≤ N := by
  obtain ⟨a, rfl⟩ := Int.eq_ofNat_of_zero_le hm
  rw [round_natCast]
  refine ⟨Int.natCast_nonneg _, ?_⟩
  simp only [toRat, Int.cast_natCast]
  have hdm : a / 2 ^ excess a a * 2 ^ excess a a + a % 2 ^ excess a a = a :=
    Nat.div_add_mod' a _
  have h' : ((a / 2 ^ excess a a * 2 ^ excess a a + a % 2 ^ excess a a : Nat) : ℚ) * 2 ^ e
      ≤ N := by
    rw [hdm]; simpa using h
  split_ifs with hup
  · obtain ⟨hs, hr⟩ := hup
    have hhalf : 0 < 2 ^ (excess a a - 1) := by positivity
    have hrpos : 0 < a % 2 ^ excess a a := by
      rcases hr with hr | ⟨hr, _⟩
      · exact lt_trans hhalf hr
      · rw [hr]; exact hhalf
    exact round_up_bound _ _ _ e N (excess_lower a a hs) hrpos hN h'
  · exact round_down_bound _ _ _ e N h'

theorem round_ge_bound (q r s : Nat) (e N : Int) (hq : s ≠ 0 → 2 ^ 52 ≤ q) (hr : r < 2 ^ s)
    (hN : N ≤ 2 ^ 53) (h : (N : ℚ) ≤ ((q * 2 ^ s + r : Nat) : ℚ) * 2 ^ e) :
    (N : ℚ) ≤ (q : ℚ) * 2 ^ (e + (s : Int)) := by
  by_cases hs : s = 0
  · subst hs
    have hr0 : r = 0 := by simpa using hr
    subst hr0
    simpa using h
  by_cases hexp : e + (s : Int) ≤ 0
  · obtain ⟨t, ht⟩ := Int.eq_ofNat_of_zero_le (by omega : 0 ≤ -(e + (s : Int)))
    have het : e + (s : Int) = -(t : Int) := by omega
    have he : e = -((t + s : Nat) : Int) := by push_cast; omega
    have hgoal : (N : ℚ) ≤ ((q : Int) : ℚ) * 2 ^ (-(t : Int)) := by
      rw [zpow_neg_ge_iff]
      have h' : (N : ℚ) ≤ (((q * 2 ^ s + r : Nat) : Int) : ℚ) * 2 ^ (-((t + s : Nat) : Int)) := by
        rw [← he]; simpa using h
      rw [zpow_neg_ge_iff] at h'
      have h6 : N * 2 ^ t * 2 ^ s < ((q : Int) + 1) * 2 ^ s := by
        have h7 : ((q * 2 ^ s + r : Nat) : Int) < ((q : Int) + 1) * 2 ^ s := by
          have : q * 2 ^ s + r < (q + 1) * 2 ^ s := by
            rw [add_mul, one_mul]; omega
          exact_mod_cast this
        rw [mul_assoc, ← pow_add]
        exact lt_of_le_of_lt h' h7
      have hq1 : N * 2 ^ t < (q : Int) + 1 := lt_of_mul_lt_mul_right h6 (by positivity)
      omega
    rw [het]
    simpa using hgoal
  · obtain ⟨k, hk⟩ := Int.eq_ofNat_of_zero_le (by omega : 0 ≤ e + (s : Int) - 1)
    have hek : e + (s : Int) = ((k + 1 : Nat) : Int) := by push_cast; omega
    rw [hek, zpow_natCast]
    have h1 : (N : ℚ) ≤ 2 ^ 53 := by exact_mod_cast hN
    have h2 : ((2 : ℚ) ^ 52) ≤ (q : ℚ) := by exact_mod_cast hq hs
    have h3 : (2 : ℚ) ≤ 2 ^ (k + 1) := by
      rw [pow_succ']
      have : (1 : ℚ) ≤ 2 ^ k := one_le_pow₀ (by norm_num)
      linarith
    have h4 : ((2 : ℚ) ^ 52) * 2 ≤ (q : ℚ) * 2 ^ (k + 1) :=
      mul_le_mul h2 h3 (by norm_num) (by positivity)
    norm_num at h4 h1
    linarith

/-- Rounding never drops the value below an integer of at most 53 bits that
it reaches. -/
theorem round_ge (m e N : Int) (hm : 0 ≤ m) (hN : N ≤ 2 ^ 53)
    (h : (N : ℚ) ≤ (m : ℚ) * 2 ^ e) :
    (N : ℚ) ≤ (round m e).toRat := by
  obtain ⟨a, rfl⟩ := Int.eq_ofNat_of_zero_le hm
  rw [round_natCast]
  simp only [toRat, Int.cast_natCast]
  have hdm : a / 2 ^ excess a a * 2 ^ excess a a + a % 2 ^ excess a a = a :=
    Nat.div_add_mod' a _
  have h' : (N : ℚ)
      ≤ ((a / 2 ^ excess a a * 2 ^ excess a a + a % 2 ^ excess a a : Nat) : ℚ) * 2 ^ e := by
    rw [hdm]; simpa using h
  have hmod : a % 2 ^ excess a a < 2 ^ excess a a := Nat.mod_lt _ (by positivity)
  have hbase := round_ge_bound _ _ _ e N (fun hs => excess_lower a a hs) hmod hN h'
  split_ifs with hup
  · refine le_trans hbase ?_
    have hpos : (0 : ℚ) ≤ 2 ^ (e + (excess a a : Int)) := by positivity
    push_cast
    nlinarith
  · exact hbase

end F64

/-- The threshold of a size up to `2 ^ 53` (where `float64(maxSize)` is exact)
and a fraction in `[0, 1]` lies between every integer the real product
reaches and `maxSize` itself, whatever the runtime. -/
theorem pctBytes_bounds (rt : Runtime) (maxSize : Int) (pct : F64)
    (h0 : 0 ≤ maxSize) (h53 : maxSize ≤ 2 ^ 53)
    (hpos : 0 ≤ pct.toRat) (hle : pct.toRat ≤ 1) :
    pctBytes rt maxSize (.finite pct) ≤ maxSize ∧
      ∀ N : Int, (N : ℚ) ≤ (maxSize : ℚ) * pct.toRat →
        N ≤ pctBytes rt maxSize (.finite pct) := by
  obtain ⟨hm1, hv1⟩ := F64.round_le maxSize 0 maxSize h0 h53 (by simp)
  have hv1' : (maxSize : ℚ) ≤ (F64.round maxSize 0).toRat :=
    F64.round_ge maxSize 0 maxSize h0 h53 (by simp)
  have hv1eq : (F64.round maxSize 0).toRat = maxSize := le_antisymm hv1 hv1'
  have hpm : 0 ≤ pct.mant := by
    unfold F64.toRat at hpos
    have h2 : (0 : ℚ) < 2 ^ pct.expo := by positivity
    have := nonneg_of_mul_nonneg_left hpos h2
    exact_mod_cast this
  have hmaxq : (0 : ℚ) ≤ (maxSize : ℚ) := by exact_mod_cast h0
  have hexact : (((F64.round maxSize 0).mant * pct.mant : Int) : ℚ)
      * 2 ^ ((F64.round maxSize 0).expo + pct.expo) = (maxSize : ℚ) * pct.toRat := by
    rw [← hv1eq]
    unfold F64.toRat
    rw [zpow_add₀ (by norm_num : (2 : ℚ) ≠ 0)]
    push_cast
    ring
  have hprodle : (maxSize : ℚ) * pct.toRat ≤ maxSize := by
    calc (maxSize : ℚ) * pct.toRat ≤ (maxSize : ℚ) * 1 := mul_le_mul_of_nonneg_left hle hmaxq
      _ = maxSize := mul_one _
  obtain ⟨hm2, hv2⟩ := F64.round_le _ _ maxSize (mul_nonneg hm1 hpm) h53
    (by rw [hexact]; exact hprodle)
  have ht_le := F64.trunc_le _ maxSize hm2 hv2
  have ht_nn : 0 ≤ (F64.round ((F64.round maxSize 0).mant * pct.mant)
      ((F64.round maxSize 0).expo + pct.expo)).trunc :=
    F64.le_trunc _ 0 hm2 (by
      unfold F64.toRat
      have : (0 : ℚ) ≤ ((F64.round ((F64.round maxSize 0).mant * pct.mant)
        ((F64.round maxSize 0).expo + pct.expo)).mant : ℚ) := by exact_mod_cast hm2
      have h2 : (0 : ℚ) ≤ 2 ^ (F64.round ((F64.round maxSize 0).mant * pct.mant)
        ((F64.round maxSize 0).expo + pct.expo)).expo := by positivity
      simpa using mul_nonneg this h2)
  have hrange : inInt64 (F64.round ((F64.round maxSize 0).mant * pct.mant)
      ((F64.round maxSize 0).expo + pct.expo)).trunc := by
    have h53' : maxSize ≤ 9007199254740992 := by simpa using h53
    simp only [inInt64, MinInt64, MaxInt64]
    constructor <;> omega
  have heq : pctBytes rt maxSize (.finite pct)
      = (F64.round ((F64.round maxSize 0).mant * pct.mant)
        ((F64.round maxSize 0).expo + pct.expo)).trunc := by
    unfold pctBytes Float64.scale Float64.toInt64 F64.toInt64 F64.mul F64.ofInt
    simp only
    rw [if_pos hrange]
  rw [heq]
  refine ⟨ht_le, fun N hN => ?_⟩
  have hN53 : N ≤ 2 ^ 53 := by
    have : (N : ℚ) ≤ (maxSize : ℚ) := le_trans hN hprodle
    have : N ≤ maxSize := by exact_mod_cast this
    exact le_trans this h53
  have := F64.round_ge _ _ N (mul_nonneg hm1 hpm) hN53 (by rw [hexact]; exact hN)
  exact F64.le_trunc _ N hm2 this

/-! ## Basic facts about `purge` and `EnsureSpace` -/

theorem after_nil (fs : FS) : (fs.after []).files = fs.files := by
  simp [FS.after, deleted]

theorem purge_openErr (rt : Runtime) (fs : FS) (dir : String) (deltaBytes : Int)
    (h : fs.openErr = true) : purge rt fs dir deltaBytes = (0, []) := by
  simp [purge, h]

theorem purge_readdirErr (rt : Runtime) (fs : FS) (dir : String) (deltaBytes : Int)
    (h : fs.readdirErr = true) : purge rt fs dir deltaBytes = (0, []) := by
  simp [purge, h]

theorem purge_listed (rt : Runtime) (fs : FS) (dir : String) (deltaBytes : Int)
    (ho : fs.openErr = false) (hr : fs.readdirErr = false) :
    purge rt fs dir deltaBytes = purgeLoop fs dir deltaBytes (rt.sortSlice fs.files) 0 := by
  simp [purge, ho, hr]

/-- On the eviction path `EnsureSpace` is the purge followed by the size
update and the final comparison. -/
theorem EnsureSpace_evict (rt : Runtime) (e : ensureSpacer) (cache : Cache) (fs : FS)
    (addBytes : Int)
    (htrig : pctBytes rt cache.MaxSize e.triggerPct ≤ add64 cache.CurrSize addBytes)
    (hflag : e.isPurging = false) :
    EnsureSpace rt e cache fs addBytes =
      ⟨decide (add64 (cache.AddCurrSize (neg64 (purge rt fs cache.Dir
            (sub64 cache.CurrSize (pctBytes rt cache.MaxSize e.targetPct))).1)).CurrSize addBytes
          ≤ cache.MaxSize),
        { e with isPurging := false },
        cache.AddCurrSize (neg64 (purge rt fs cache.Dir
            (sub64 cache.CurrSize (pctBytes rt cache.MaxSize e.targetPct))).1),
        fs.after (purge rt fs cache.Dir
            (sub64 cache.CurrSize (pctBytes rt cache.MaxSize e.targetPct))).2,
        (purge rt fs cache.Dir
            (sub64 cache.CurrSize (pctBytes rt cache.MaxSize e.targetPct))).2⟩ := by
  simp [EnsureSpace, not_lt.mpr htrig, hflag]
  rfl

/-- Below the threshold `EnsureSpace` returns at once and touches nothing. -/
theorem EnsureSpace_below (rt : Runtime) (e : ensureSpacer) (cache : Cache) (fs : FS)
    (addBytes : Int)
    (h : add64 cache.CurrSize addBytes < pctBytes rt cache.MaxSize e.triggerPct) :
    EnsureSpace rt e cache fs addBytes = ⟨true, e, cache, fs, []⟩ := by
  simp [EnsureSpace, h]

/-- With a pass in flight and the threshold reached, `EnsureSpace` only
compares. -/
theorem EnsureSpace_in_flight (rt : Runtime) (e : ensureSpacer) (cache : Cache) (fs : FS)
    (addBytes : Int)
    (htrig : pctBytes rt cache.MaxSize e.triggerPct ≤ add64 cache.CurrSize addBytes)
    (hflag : e.isPurging = true) :
    EnsureSpace rt e cache fs addBytes =
      ⟨decide (add64 cache.CurrSize addBytes ≤ cache.MaxSize), e, cache, fs, []⟩ := by
  simp [EnsureSpace, not_lt.mpr htrig, hflag]

/-! ## The scan -/

/-- The loop body on an entry whose `os.Remove` fails. -/
theorem purgeLoop_cons_err (fs : FS) (dir : String) (deltaBytes : Int) (f : FileInfo)
    (rest : List FileInfo) (p : Int) (herr : fs.removeErr (joinPath dir f.name) = true) :
    purgeLoop fs dir deltaBytes (f :: rest) p =
      if deltaBytes ≤ p then (p, [(f, false)])
      else ((purgeLoop fs dir deltaBytes rest p).1,
        (f, false) :: (purgeLoop fs dir deltaBytes rest p).2) := by
  simp [purgeLoop, herr]

/-- The loop body on an entry whose `os.Remove` succeeds. -/
theorem purgeLoop_cons_ok (fs : FS) (dir : String) (deltaBytes : Int) (f : FileInfo)
    (rest : List FileInfo) (p : Int) (herr : fs.removeErr (joinPath dir f.name) = false) :
    purgeLoop fs dir deltaBytes (f :: rest) p =
      if deltaBytes ≤ add64 p (f.size : Int) then (add64 p (f.size : Int), [(f, true)])
      else ((purgeLoop fs dir deltaBytes rest (add64 p (f.size : Int))).1,
        (f, true) :: (purgeLoop fs dir deltaBytes rest (add64 p (f.size : Int))).2) := by
  simp [purgeLoop, herr]

/-- The entries attempted form an initial segment of the order scanned. -/
theorem purgeLoop_attempted_initial (fs : FS) (dir : String) (deltaBytes : Int) :
    ∀ (L : List FileInfo) (p : Int),
      ∃ rest, L = attempted (purgeLoop fs dir deltaBytes L p).2 ++ rest := by
  intro L
  induction L with
  | nil => intro p; exact ⟨[], by simp [purgeLoop, attempted]⟩
  | cons f rest ih =>
    intro p
    rcases Bool.eq_false_or_eq_true (fs.removeErr (joinPath dir f.name)) with herr | herr
    · rw [purgeLoop_cons_err _ _ _ _ _ _ herr]
      by_cases h : deltaBytes ≤ p
      · rw [if_pos h]; exact ⟨rest, by simp [attempted]⟩
      · rw [if_neg h]
        obtain ⟨r, hr⟩ := ih p
        exact ⟨r, by simp only [attempted, List.map_cons, List.cons_append] at hr ⊢; rw [← hr]⟩
    · rw [purgeLoop_cons_ok _ _ _ _ _ _ herr]
      by_cases h : deltaBytes ≤ add64 p (f.size : Int)
      · rw [if_pos h]; exact ⟨rest, by simp [attempted]⟩
      · rw [if_neg h]
        obtain ⟨r, hr⟩ := ih (add64 p (f.size : Int))
        exact ⟨r, by simp only [attempted, List.map_cons, List.cons_append] at hr ⊢; rw [← hr]⟩

/-- Each logged outcome is the outcome of `os.Remove` on that entry's path. -/
theorem purgeLoop_flags (fs : FS) (dir : String) (deltaBytes : Int) :
    ∀ (L : List FileInfo) (p : Int),
      ∀ x ∈ (purgeLoop fs dir deltaBytes L p).2, x.2 = !fs.removeErr (joinPath dir x.1.name) := by
  intro L
  induction L with
  | nil => intro p x hx; simp [purgeLoop] at hx
  | cons f rest ih =>
    intro p x hx
    rcases Bool.eq_false_or_eq_true (fs.removeErr (joinPath dir f.name)) with herr | herr
    · rw [purgeLoop_cons_err _ _ _ _ _ _ herr] at hx
      by_cases h : deltaBytes ≤ p
      · rw [if_pos h] at hx
        simp only [List.mem_singleton] at hx
        subst hx; simp [herr]
      · rw [if_neg h] at hx
        simp only [List.mem_cons] at hx
        rcases hx with hx | hx
        · subst hx; simp [herr]
        · exact ih p x hx
    · rw [purgeLoop_cons_ok _ _ _ _ _ _ herr] at hx
      by_cases h : deltaBytes ≤ add64 p (f.size : Int)
      · rw [if_pos h] at hx
        simp only [List.mem_singleton] at hx
        subst hx; simp [herr]
      · rw [if_neg h] at hx
        simp only [List.mem_cons] at hx
        rcases hx with hx | hx
        · subst hx; simp [herr]
        · exact ih _ x hx

theorem runningTotal_cons (p : Int) (x : FileInfo × Bool) (log : List (FileInfo × Bool)) :
    runningTotal p (x :: log)
      = runningTotal (if x.2 then add64 p (x.1.size : Int) else p) log := by
  simp [runningTotal]

/-- The value the loop returns is the running total of its own log. -/
theorem purgeLoop_running (fs : FS) (dir : String) (deltaBytes : Int) :
    ∀ (L : List FileInfo) (p : Int),
      (purgeLoop fs dir deltaBytes L p).1
        = runningTotal p (purgeLoop fs dir deltaBytes L p).2 := by
  intro L
  induction L with
  | nil => intro p; simp [purgeLoop, runningTotal]
  | cons f rest ih =>
    intro p
    rcases Bool.eq_false_or_eq_true (fs.removeErr (joinPath dir f.name)) with herr | herr
    · rw [purgeLoop_cons_err _ _ _ _ _ _ herr]
      by_cases h : deltaBytes ≤ p
      · rw [if_pos h]; simp [runningTotal]
      · rw [if_neg h, runningTotal_cons]
        simpa using ih p
    · rw [purgeLoop_cons_ok _ _ _ _ _ _ herr]
      by_cases h : deltaBytes ≤ add64 p (f.size : Int)
      · rw [if_pos h]; simp [runningTotal]
      · rw [if_neg h, runningTotal_cons]
        simpa using ih (add64 p (f.size : Int))

/-- While attempts remain to be made, the running total is still below the
request: the scan never goes on once the request is met. -/
theorem purgeLoop_below_until_last (fs : FS) (dir : String) (deltaBytes : Int) :
    ∀ (L : List FileInfo) (p : Int), p < deltaBytes →
      ∀ pre suf, (purgeLoop fs dir deltaBytes L p).2 = pre ++ suf → suf ≠ [] →
        runningTotal p pre < deltaBytes := by
  intro L
  induction L with
  | nil =>
    intro p _ pre suf h hsuf
    simp only [purgeLoop] at h
    have := List.append_eq_nil.mp h.symm
    exact absurd this.2 hsuf
  | cons f rest ih =>
    intro p hp pre suf h hsuf
    cases pre with
    | nil => simpa [runningTotal] using hp
    | cons x pre' =>
      rcases Bool.eq_false_or_eq_true (fs.removeErr (joinPath dir f.name)) with herr | herr
      · rw [purgeLoop_cons_err _ _ _ _ _ _ herr, if_neg (not_le.mpr hp)] at h
        simp only [List.cons_append, List.cons.injEq] at h
        obtain ⟨hx, htail⟩ := h
        rw [runningTotal_cons, ← hx]
        simpa using ih p hp pre' suf htail hsuf
      · rw [purgeLoop_cons_ok _ _ _ _ _ _ herr] at h
        by_cases hstop : deltaBytes ≤ add64 p (f.size : Int)
        · rw [if_pos hstop] at h
          simp only [List.cons_append, List.cons.injEq] at h
          have := List.append_eq_nil.mp h.2.symm
          exact absurd this.2 hsuf
        · rw [if_neg hstop] at h
          simp only [List.cons_append, List.cons.injEq] at h
          obtain ⟨hx, htail⟩ := h
          rw [runningTotal_cons, ← hx]
          simpa using ih _ (not_le.mp hstop) pre' suf htail hsuf

/-- Started below the request, the scan exhausts the list or stops right
after the successful deletion that reaches the request. -/
theorem purgeLoop_stop (fs : FS) (dir : String) (deltaBytes : Int) :
    ∀ (L : List FileInfo) (p : Int), p < deltaBytes →
      attempted (purgeLoop fs dir deltaBytes L p).2 = L ∨
        (deltaBytes ≤ (purgeLoop fs dir deltaBytes L p).1 ∧
          ∃ pre f, (purgeLoop fs dir deltaBytes L p).2 = pre ++ [(f, true)]) := by
  intro L
  induction L with
  | nil => intro p _; left; simp [purgeLoop, attempted]
  | cons f rest ih =>
    intro p hp
    rcases Bool.eq_false_or_eq_true (fs.removeErr (joinPath dir f.name)) with herr | herr
    · rw [purgeLoop_cons_err _ _ _ _ _ _ herr, if_neg (not_le.mpr hp)]
      rcases ih p hp with h | ⟨h1, pre, g, h2⟩
      · left; simp only [attempted, List.map_cons] at h ⊢; rw [h]
      · right
        exact ⟨h1, (f, false) :: pre, g, by simp [h2]⟩
    · rw [purgeLoop_cons_ok _ _ _ _ _ _ herr]
      by_cases h : deltaBytes ≤ add64 p (f.size : Int)
      · rw [if_pos h]
        right
        exact ⟨h, [], f, by simp⟩
      · rw [if_neg h]
        rcases ih (add64 p (f.size : Int)) (not_le.mp h) with h' | ⟨h1, pre, g, h2⟩
        · left; simp only [attempted, List.map_cons] at h' ⊢; rw [h']
        · right
          exact ⟨h1, (f, true) :: pre, g, by simp [h2]⟩

/-- A scan that ends on a failed deletion has exhausted its list, unless the
total it started with already met the request. -/
theorem purgeLoop_last_failed (fs : FS) (dir : String) (deltaBytes : Int)
    (L : List FileInfo) (p : Int) (f : FileInfo) (hp : p < deltaBytes)
    (hlast : (purgeLoop fs dir deltaBytes L p).2.getLast? = some (f, false)) :
    attempted (purgeLoop fs dir deltaBytes L p).2 = L := by
  rcases purgeLoop_stop fs dir deltaBytes L p hp with h | ⟨_, pre, g, h2⟩
  · exact h
  · rw [h2] at hlast
    simp at hlast

/-- Asked for nothing (`deltaBytes <= 0`), the scan still calls `os.Remove` on
the first entry of a non-empty list, and on that entry only: the stop test
comes after the removal. -/
theorem purgeLoop_nonpositive (fs : FS) (dir : String) (deltaBytes : Int) (f : FileInfo)
    (rest : List FileInfo) (h : deltaBytes ≤ 0) (hsize : (f.size : Int) ≤ MaxInt64) :
    attempted (purgeLoop fs dir deltaBytes (f :: rest) 0).2 = [f] := by
  have hnn : (0 : Int) ≤ (f.size : Int) := Int.natCast_nonneg _
  have hw : add64 0 (f.size : Int) = (f.size : Int) := by
    simp only [MaxInt64] at hsize
    unfold add64 wrap64
    omega
  rcases Bool.eq_false_or_eq_true (fs.removeErr (joinPath dir f.name)) with herr | herr
  · simp [purgeLoop, herr, h, attempted]
  · have hsz : deltaBytes ≤ (f.size : Int) := by omega
    simp [purgeLoop, herr, hw, hsz, attempted]

/-- When no `os.Remove` fails on the entries scanned, every attempt deletes. -/
theorem purgeLoop_all_deleted (fs : FS) (dir : String) (deltaBytes : Int) :
    ∀ (L : List FileInfo) (p : Int),
      (∀ f ∈ L, fs.removeErr (joinPath dir f.name) = false) →
      deleted (purgeLoop fs dir deltaBytes L p).2
        = attempted (purgeLoop fs dir deltaBytes L p).2 := by
  intro L
  induction L with
  | nil => intro p _; simp [purgeLoop, deleted, attempted]
  | cons f rest ih =>
    intro p hok
    have hf : fs.removeErr (joinPath dir f.name) = false := hok f (List.mem_cons_self _ _)
    have hrest : ∀ g ∈ rest, fs.removeErr (joinPath dir g.name) = false :=
      fun g hg => hok g (List.mem_cons_of_mem _ hg)
    rw [purgeLoop_cons_ok _ _ _ _ _ _ hf]
    by_cases h : deltaBytes ≤ add64 p (f.size : Int)
    · rw [if_pos h]; simp [deleted, attempted]
    · rw [if_neg h]
      have := ih (add64 p (f.size : Int)) hrest
      simp only [deleted, attempted] at this ⊢
      simp [this]

/-! ## Sums of sizes -/

theorem sizeSum_perm {l₁ l₂ : List FileInfo} (h : l₁.Perm l₂) : sizeSum l₁ = sizeSum l₂ := by
  unfold sizeSum
  exact (h.map _).sum_eq

theorem sizeSum_nonneg (l : List FileInfo) : 0 ≤ sizeSum l := by
  unfold sizeSum
  apply List.sum_nonneg
  intro x hx
  simp only [List.mem_map] at hx
  obtain ⟨f, _, rfl⟩ := hx
  exact Int.natCast_nonneg _

theorem sizeSum_append (l₁ l₂ : List FileInfo) :
    sizeSum (l₁ ++ l₂) = sizeSum l₁ + sizeSum l₂ := by
  simp [sizeSum]

theorem sizeSum_cons (f : FileInfo) (l : List FileInfo) :
    sizeSum (f :: l) = (f.size : Int) + sizeSum l := by
  simp [sizeSum]

theorem deleted_cons_true (f : FileInfo) (log : List (FileInfo × Bool)) :
    deleted ((f, true) :: log) = f :: deleted log := by
  simp [deleted]

theorem deleted_cons_false (f : FileInfo) (log : List (FileInfo × Bool)) :
    deleted ((f, false) :: log) = deleted log := by
  simp [deleted]

theorem attempted_cons (x : FileInfo × Bool) (log : List (FileInfo × Bool)) :
    attempted (x :: log) = x.1 :: attempted log := by
  simp [attempted]

theorem sizeSum_deleted_le (log : List (FileInfo × Bool)) :
    sizeSum (deleted log) ≤ sizeSum (attempted log) := by
  induction log with
  | nil => simp [deleted, attempted]
  | cons x log ih =>
    obtain ⟨f, ok⟩ := x
    have hnn : (0 : Int) ≤ (f.size : Int) := Int.natCast_nonneg _
    cases ok
    · rw [deleted_cons_false, attempted_cons, sizeSum_cons]
      simp only
      omega
    · rw [deleted_cons_true, attempted_cons, sizeSum_cons, sizeSum_cons]
      simp only
      omega

/-- Without overflow the running total is the sum of the sizes deleted. -/
theorem runningTotal_eq_sum :
    ∀ (log : List (FileInfo × Bool)) (p : Int), 0 ≤ p →
      p + sizeSum (deleted log) ≤ MaxInt64 →
      runningTotal p log = p + sizeSum (deleted log) := by
  intro log
  induction log with
  | nil => intro p _ _; simp [runningTotal, deleted, sizeSum]
  | cons x log ih =>
    intro p hp hmax
    obtain ⟨f, ok⟩ := x
    have hnn : (0 : Int) ≤ (f.size : Int) := Int.natCast_nonneg _
    rw [runningTotal_cons]
    cases ok
    · have hd : deleted ((f, false) :: log) = deleted log := by simp [deleted]
      rw [hd] at hmax ⊢
      simpa using ih p hp hmax
    · have hd : sizeSum (deleted ((f, true) :: log)) = (f.size : Int) + sizeSum (deleted log) := by
        simp [deleted, sizeSum]
      rw [hd] at hmax ⊢
      have hrest := sizeSum_nonneg (deleted log)
      have hw : add64 p (f.size : Int) = p + (f.size : Int) := by
        unfold add64
        apply wrap64_of_inInt64
        simp only [inInt64, MinInt64, MaxInt64] at hmax ⊢
        omega
      simp only [if_true]
      rw [hw, ih (p + (f.size : Int)) (by omega) (by omega)]
      ring

theorem deleted_subset_attempted (log : List (FileInfo × Bool)) (d : FileInfo)
    (h : d ∈ deleted log) : d ∈ attempted log := by
  simp only [deleted, attempted, List.mem_map, List.mem_filter] at h ⊢
  obtain ⟨x, ⟨hx, _⟩, rfl⟩ := h
  exact ⟨x, hx, rfl⟩

/-- The sizes a scan deletes sum to at most the sizes of the list scanned. -/
theorem purgeLoop_deleted_le (fs : FS) (dir : String) (deltaBytes : Int)
    (L : List FileInfo) (p : Int) :
    sizeSum (deleted (purgeLoop fs dir deltaBytes L p).2) ≤ sizeSum L := by
  obtain ⟨rest, hrest⟩ := purgeLoop_attempted_initial fs dir deltaBytes L p
  have h1 := sizeSum_deleted_le (purgeLoop fs dir deltaBytes L p).2
  have h2 : sizeSum L = sizeSum (attempted (purgeLoop fs dir deltaBytes L p).2) + sizeSum rest := by
    conv_lhs => rw [hrest]
    exact sizeSum_append _ _
  have h3 := sizeSum_nonneg rest
  omega

/-- Without overflow the value the loop returns, started at 0, is the sum of
the sizes it deleted. -/
theorem purgeLoop_total (fs : FS) (dir : String) (deltaBytes : Int) (L : List FileInfo)
    (hL : sizeSum L ≤ MaxInt64) :
    (purgeLoop fs dir deltaBytes L 0).1
      = sizeSum (deleted (purgeLoop fs dir deltaBytes L 0).2) := by
  rw [purgeLoop_running]
  have h := purgeLoop_deleted_le fs dir deltaBytes L 0
  rw [runningTotal_eq_sum _ 0 le_rfl (by omega)]
  ring

/-! ## The order scanned -/

theorem sortSlice_sorted_atime (rt : Runtime) (files : List FileInfo) :
    (rt.sortSlice files).Pairwise (fun a b => a.atime ≤ b.atime) :=
  List.Pairwise.imp (fun h => by simpa [less] using h) (rt.sortSlice_sorted files)

/-- On a listing without equal access times every runtime gives the same
order. -/
theorem sortSlice_unique (rt₁ rt₂ : Runtime) (files : List FileInfo)
    (hd : files.Pairwise (fun a b => a.atime ≠ b.atime)) :
    rt₁.sortSlice files = rt₂.sortSlice files := by
  have hsymm : ∀ a b : FileInfo, a.atime ≠ b.atime → b.atime ≠ a.atime :=
    fun _ _ h => Ne.symm h
  have strict : ∀ rt : Runtime,
      (rt.sortSlice files).Pairwise (fun a b => a.atime < b.atime) := by
    intro rt
    have h1 : (rt.sortSlice files).Pairwise (fun a b => a.atime ≤ b.atime) :=
      List.Pairwise.imp (fun h => by simpa [less] using h) (rt.sortSlice_sorted files)
    have h2 : (rt.sortSlice files).Pairwise (fun a b => a.atime ≠ b.atime) :=
      ((rt.sortSlice_perm files).pairwise_iff (fun {a b} h => hsymm a b h)).mpr hd
    exact List.Pairwise.imp₂ (fun _ _ h1 h2 => lt_of_le_of_ne h1 h2) h1 h2
  haveI : IsAntisymm FileInfo (fun a b => a.atime < b.atime) :=
    ⟨fun a b h1 h2 => absurd h1 (not_lt.mpr h2.le)⟩
  exact List.eq_of_perm_of_sorted
    ((rt₁.sortSlice_perm files).trans (rt₂.sortSlice_perm files).symm) (strict rt₁) (strict rt₂)

/-- On any ordering `L` of the entries by access time, whatever it does with
ties, the scan attempts an initial segment in order, and everything it leaves
unattempted is at least as new as everything it attempted. -/
theorem purgeLoop_oldest_first (fs : FS) (dir : String) (deltaBytes : Int)
    (L : List FileInfo) (p : Int) (hL : L.Pairwise (fun a b => a.atime ≤ b.atime)) :
    (attempted (purgeLoop fs dir deltaBytes L p).2).Pairwise (fun a b => a.atime ≤ b.atime) ∧
      ∀ d ∈ attempted (purgeLoop fs dir deltaBytes L p).2, ∀ r ∈ L,
        r ∉ attempted (purgeLoop fs dir deltaBytes L p).2 → d.atime ≤ r.atime := by
  obtain ⟨rest, hrest⟩ := purgeLoop_attempted_initial fs dir deltaBytes L p
  rw [hrest, List.pairwise_append] at hL
  refine ⟨hL.1, fun d hd r hr hnot => ?_⟩
  rw [hrest, List.mem_append] at hr
  rcases hr with hr | hr
  · exact absurd hr hnot
  · exact hL.2.2 d hd r hr

/-! ## C1: the returned boolean -/

/-- C1, as stated, fails, in two ways.  Rounding: `MaxSize = 2 ^ 54 + 6` is at
least 0, `addBytes = 7` is at least 0 and `triggerPct = 1.0` lies in `(0, 1]`,
but `float64(MaxSize)` is `2 ^ 54 + 8`, so the threshold is `MaxSize + 2`; with
`CurrSize = 2 ^ 54` the sum `MaxSize + 1` stays below it and the fast path
returns `true` although `CurrSize + addBytes <= MaxSize` is false when the call
returns.  Overflow: with `MaxSize = 1000`, trigger 0.9, `CurrSize = 1` and
`addBytes = MaxInt64` the `int64` sum wraps to `MinInt64`, the fast path
returns `true`, and `1 + MaxInt64` is not at most 1000. -/
theorem C1_rounded_threshold_counterexample :
    (0 ≤ hugeCache.MaxSize ∧ (0 : Int) ≤ 7 ∧
      0 < f1_0.toRat ∧ f1_0.toRat ≤ 1 ∧
      pctBytes amd64 hugeCache.MaxSize (.finite f1_0) = hugeCache.MaxSize + 2 ∧
      (EnsureSpace amd64 (spacerOf f1_0 f0_5) hugeCache (okFS fiveFiles) 7).ret = true ∧
      ¬ ((EnsureSpace amd64 (spacerOf f1_0 f0_5) hugeCache (okFS fiveFiles) 7).cache.CurrSize
          + 7
        ≤ (EnsureSpace amd64 (spacerOf f1_0 f0_5) hugeCache
            (okFS fiveFiles) 7).cache.MaxSize)) ∧
    ((0 : Int) ≤ (⟨1, 1000, "/cache", []⟩ : Cache).MaxSize ∧ 0 ≤ MaxInt64 ∧
      scenarioSpacer.triggerPct = .finite f0_9 ∧ 0 < f0_9.toRat ∧ f0_9.toRat ≤ 1 ∧
      (EnsureSpace amd64 scenarioSpacer ⟨1, 1000, "/cache", []⟩ (okFS fiveFiles) MaxInt64).ret
        = true ∧
      ¬ ((EnsureSpace amd64 scenarioSpacer ⟨1, 1000, "/cache", []⟩
            (okFS fiveFiles) MaxInt64).cache.CurrSize + MaxInt64
        ≤ (EnsureSpace amd64 scenarioSpacer ⟨1, 1000, "/cache", []⟩
            (okFS fiveFiles) MaxInt64).cache.MaxSize)) := by
  refine ⟨⟨by decide, by decide, ?_, ?_, by decide, by decide, by decide⟩,
    ⟨by decide, by decide, rfl, ?_, ?_, by decide, by decide⟩⟩
  · norm_num [F64.toRat, f1_0]
  · norm_num [F64.toRat, f1_0]
  · norm_num [F64.toRat, f0_9]
  · norm_num [F64.toRat, f0_9]

/-- C1, amended: for every runtime, guard and cache state with
`0 <= MaxSize() <= 2 ^ 53` (where `float64(MaxSize())` is exact), every
`addBytes` and every `triggerPct` in `(0, 1]` (a finite value `pct`), `EnsureSpace` returns `true` if
and only if `CurrSize() + addBytes <= MaxSize()` holds, in `int64` as the code
adds, for the `CurrSize()` the call leaves behind; and whenever that sum does
not overflow `int64`, if and only if it holds of the integers themselves. -/
theorem EnsureSpace_ret_iff_fits (rt : Runtime) (e : ensureSpacer) (cache : Cache) (fs : FS)
    (addBytes : Int) (pct : F64)
    (h0 : 0 ≤ cache.MaxSize) (h53 : cache.MaxSize ≤ 2 ^ 53)
    (hpct : e.triggerPct = .finite pct) (hpos : 0 < pct.toRat) (hle : pct.toRat ≤ 1) :
    ((EnsureSpace rt e cache fs addBytes).ret = true ↔
      add64 (EnsureSpace rt e cache fs addBytes).cache.CurrSize addBytes
        ≤ (EnsureSpace rt e cache fs addBytes).cache.MaxSize) ∧
    (inInt64 ((EnsureSpace rt e cache fs addBytes).cache.CurrSize + addBytes) →
      ((EnsureSpace rt e cache fs addBytes).ret = true ↔
        (EnsureSpace rt e cache fs addBytes).cache.CurrSize + addBytes
          ≤ (EnsureSpace rt e cache fs addBytes).cache.MaxSize)) := by
  have hthr : pctBytes rt cache.MaxSize e.triggerPct ≤ cache.MaxSize := by
    rw [hpct]
    exact (pctBytes_bounds rt cache.MaxSize pct h0 h53 hpos.le hle).1
  have key : (EnsureSpace rt e cache fs addBytes).ret = true ↔
      add64 (EnsureSpace rt e cache fs addBytes).cache.CurrSize addBytes
        ≤ (EnsureSpace rt e cache fs addBytes).cache.MaxSize := by
    by_cases htrig : pctBytes rt cache.MaxSize e.triggerPct ≤ add64 cache.CurrSize addBytes
    · rcases Bool.eq_false_or_eq_true e.isPurging with hflag | hflag
      · rw [EnsureSpace_in_flight rt e cache fs addBytes htrig hflag]
        simp only [decide_eq_true_eq]
      · rw [EnsureSpace_evict rt e cache fs addBytes htrig hflag]
        simp only [decide_eq_true_eq]
        rfl
    · rw [EnsureSpace_below rt e cache fs addBytes (not_le.mp htrig)]
      simp only [true_iff]
      have := not_le.mp htrig
      omega
  refine ⟨key, fun hrange => ?_⟩
  rw [key]
  unfold add64
  rw [wrap64_of_inInt64 _ hrange]

/-- The amended C1 in the spec's second scenario (`CurrSize = 950`, 100 bytes
in the directory, `addBytes = 200`): the call returns `false`. -/
theorem EnsureSpace_ret_iff_fits_witness :
    (EnsureSpace amd64 scenarioSpacer ⟨950, 1000, "/cache", []⟩ (okFS oneFile) 200).ret = true ↔
      (EnsureSpace amd64 scenarioSpacer ⟨950, 1000, "/cache", []⟩
          (okFS oneFile) 200).cache.CurrSize + 200
        ≤ (EnsureSpace amd64 scenarioSpacer ⟨950, 1000, "/cache", []⟩
          (okFS oneFile) 200).cache.MaxSize :=
  (EnsureSpace_ret_iff_fits amd64 scenarioSpacer ⟨950, 1000, "/cache", []⟩ (okFS oneFile) 200
    f0_9 (by decide) (by decide) rfl (by norm_num [F64.toRat, f0_9])
    (by norm_num [F64.toRat, f0_9])).2 (by decide)

/-! ## C2: the fast path -/

/-- C2, as stated, fails.  Truncation: with `MaxSize = 1001` and
`triggerPct = 0.5` the real product is 500.5, so `CurrSize + addBytes = 500` is
below it, yet the code compares with the truncated 500, runs a pass and deletes
the file.  Rounding: `MaxSize = 2 ^ 53 + 1` becomes `2 ^ 53` in `float64`, so
with `triggerPct = 1.0` and `CurrSize = 2 ^ 53` the sum is below even the
truncated real product, and the code still runs a pass.  Range: a product that
`int64` cannot hold yields whatever the implementation gives; with
`MaxSize = MaxInt64` and `triggerPct = 1.0` on amd64 the threshold is
`MinInt64`, and an empty cache with `addBytes = 0` runs a pass and deletes the
file. -/
theorem C2_real_product_counterexample :
    ((((⟨500, 1001, "/cache", []⟩ : Cache).CurrSize + 0 : Int) : ℚ)
        < ((⟨500, 1001, "/cache", []⟩ : Cache).MaxSize : ℚ) * f0_5.toRat ∧
      (EnsureSpace amd64 (spacerOf f0_5 f0_25) ⟨500, 1001, "/cache", []⟩
          (okFS oneFile) 0).removes = [(⟨"a", 100, 1⟩, true)] ∧
      (EnsureSpace amd64 (spacerOf f0_5 f0_25) ⟨500, 1001, "/cache", []⟩
          (okFS oneFile) 0).fs.files = []) ∧
    (oddCache.CurrSize + 0 < ⌊(oddCache.MaxSize : ℚ) * f1_0.toRat⌋ ∧
      (EnsureSpace amd64 (spacerOf f1_0 f0_5) oddCache (okFS oneFile) 0).removes
        = [(⟨"a", 100, 1⟩, true)]) ∧
    (maxCache.CurrSize + 0 < ⌊(maxCache.MaxSize : ℚ) * f1_0.toRat⌋ ∧
      pctBytes amd64 maxCache.MaxSize (.finite f1_0) = MinInt64 ∧
      (EnsureSpace amd64 (spacerOf f1_0 f0_5) maxCache (okFS oneFile) 0).removes
        = [(⟨"a", 100, 1⟩, true)]) := by
  refine ⟨⟨?_, by decide, by decide⟩, ⟨?_, by decide⟩, ⟨?_, by decide, by decide⟩⟩
  · norm_num [Cache.CurrSize, Cache.MaxSize, F64.toRat, f0_5]
  · exact Int.lt_of_add_one_le (Int.le_floor.mpr
      (by norm_num [Cache.CurrSize, Cache.MaxSize, F64.toRat, f1_0, oddCache]))
  · exact Int.lt_of_add_one_le (Int.le_floor.mpr
      (by norm_num [Cache.CurrSize, Cache.MaxSize, F64.toRat, f1_0, maxCache, MaxInt64]))

/-- C2, amended: for every runtime and every cache state with
`0 <= MaxSize() <= 2 ^ 53`, every `triggerPct` in `[0, 1]` (a finite value
`pct`) and every `addBytes` whose sum with `CurrSize()` does not fall below
`MinInt64`, if
`CurrSize() + addBytes` is below the real product `MaxSize() * triggerPct`
truncated to an integer, then `EnsureSpace` returns `true`, calls `os.Remove`
on nothing and leaves directory, cache and guard as they were. -/
theorem EnsureSpace_fast_path (rt : Runtime) (e : ensureSpacer) (cache : Cache) (fs : FS)
    (addBytes : Int) (pct : F64)
    (h0 : 0 ≤ cache.MaxSize) (h53 : cache.MaxSize ≤ 2 ^ 53)
    (hpct : e.triggerPct = .finite pct) (hp0 : 0 ≤ pct.toRat) (hp1 : pct.toRat ≤ 1)
    (hlow : MinInt64 ≤ cache.CurrSize + addBytes)
    (h : cache.CurrSize + addBytes < ⌊(cache.MaxSize : ℚ) * pct.toRat⌋) :
    (EnsureSpace rt e cache fs addBytes).ret = true ∧
      (EnsureSpace rt e cache fs addBytes).removes = [] ∧
      (EnsureSpace rt e cache fs addBytes).fs.files = fs.files ∧
      (EnsureSpace rt e cache fs addBytes).cache = cache ∧
      (EnsureSpace rt e cache fs addBytes).spacer = e := by
  obtain ⟨hthr, hfloor⟩ := pctBytes_bounds rt cache.MaxSize pct h0 h53 hp0 hp1
  rw [← hpct] at hthr hfloor
  have h1 : cache.CurrSize + addBytes + 1 ≤ ⌊(cache.MaxSize : ℚ) * pct.toRat⌋ := h
  have h2 : cache.CurrSize + addBytes + 1 ≤ pctBytes rt cache.MaxSize e.triggerPct :=
    hfloor _ (Int.le_floor.mp h1)
  have hrange : inInt64 (cache.CurrSize + addBytes) := by
    have h53' : cache.MaxSize ≤ 9007199254740992 := by simpa using h53
    simp only [inInt64, MinInt64, MaxInt64] at hlow ⊢
    constructor <;> omega
  have hbelow : add64 cache.CurrSize addBytes < pctBytes rt cache.MaxSize e.triggerPct := by
    unfold add64
    rw [wrap64_of_inInt64 _ hrange]
    omega
  rw [EnsureSpace_below rt e cache fs addBytes hbelow]
  exact ⟨rfl, rfl, rfl, rfl, rfl⟩

/-- The amended C2 at `CurrSize = 100`, `addBytes = 50`, `MaxSize = 1000`,
trigger 0.9: the sum 150 is below the truncated product 900. -/
theorem EnsureSpace_fast_path_witness :
    (EnsureSpace amd64 scenarioSpacer ⟨100, 1000, "/cache", []⟩ (okFS fiveFiles) 50).ret = true ∧
      (EnsureSpace amd64 scenarioSpacer ⟨100, 1000, "/cache", []⟩
        (okFS fiveFiles) 50).removes = [] :=
  ⟨(EnsureSpace_fast_path amd64 scenarioSpacer ⟨100, 1000, "/cache", []⟩ (okFS fiveFiles) 50
      f0_9 (by decide) (by decide) rfl
      (by norm_num [F64.toRat, f0_9])
      (by norm_num [F64.toRat, f0_9])
      (by decide)
      (Int.lt_of_add_one_le (Int.le_floor.mpr
        (by norm_num [Cache.CurrSize, Cache.MaxSize, F64.toRat, f0_9])))).1,
   (EnsureSpace_fast_path amd64 scenarioSpacer ⟨100, 1000, "/cache", []⟩ (okFS fiveFiles) 50
      f0_9 (by decide) (by decide) rfl
      (by norm_num [F64.toRat, f0_9])
      (by norm_num [F64.toRat, f0_9])
      (by decide)
      (Int.lt_of_add_one_le (Int.le_floor.mpr
        (by norm_num [Cache.CurrSize, Cache.MaxSize, F64.toRat, f0_9])))).2.1⟩

/-! ## C3, C4: a request for nothing -/

/-- C3 at its failing input: asked to reclaim 0 bytes (or -100) from a
directory holding one deletable 100-byte file, `purge` removes the file and
returns 100. -/
theorem purge_nonpositive_delta_deletes :
    purge amd64 (okFS oneFile) "/cache" 0 = (100, [(⟨"a", 100, 1⟩, true)]) ∧
      purge amd64 (okFS oneFile) "/cache" (-100) = (100, [(⟨"a", 100, 1⟩, true)]) ∧
      ((okFS oneFile).after (purge amd64 (okFS oneFile) "/cache" 0).2).files = [] := by
  decide

/-- C4 at its failing input: `CurrSize = 400` is below the target 500, and
`addBytes = 600` reaches the trigger 900; `EnsureSpace` deletes the oldest
file `a` and lowers `CurrSize` to 300. -/
theorem EnsureSpace_below_target_deletes :
    (⟨400, 1000, "/cache", []⟩ : Cache).CurrSize
        < pctBytes amd64 1000 scenarioSpacer.targetPct ∧
      (EnsureSpace amd64 scenarioSpacer ⟨400, 1000, "/cache", []⟩ (okFS twoFiles) 600).removes
        = [(⟨"a", 100, 1⟩, true)] ∧
      (EnsureSpace amd64 scenarioSpacer ⟨400, 1000, "/cache", []⟩ (okFS twoFiles) 600).fs.files
        = [⟨"b", 100, 2⟩] ∧
      (EnsureSpace amd64 scenarioSpacer ⟨400, 1000, "/cache", []⟩
          (okFS twoFiles) 600).cache.CurrSize
        = 300 := by
  decide

/-! ## C5: oldest first -/

/-- C5, as stated, fails: removing the older file `a` fails, the scan goes on
and deletes the newer file `b`; when the pass ends `b` is deleted while the
strictly older `a` remains in the directory. -/
theorem C5_older_remains_counterexample :
    (purge amd64 stuckFS "/cache" 50).2 = [(⟨"a", 100, 1⟩, false), (⟨"b", 100, 2⟩, true)] ∧
      ¬ (∀ d ∈ deleted (purge amd64 stuckFS "/cache" 50).2,
          ∀ r ∈ (stuckFS.after (purge amd64 stuckFS "/cache" 50).2).files,
            ¬ r.atime < d.atime) := by
  decide

/-- C5, amended: a purge pass calls `os.Remove` on entries in non-decreasing
order of last-access time, and when the pass ends no deleted entry has a
strictly newer access time than an entry that remains in the directory without
a deletion attempt (an entry whose deletion failed can remain while newer ones
are deleted).  This holds whatever order the runtime gives to entries with
equal access times. -/
theorem purge_oldest_first (rt : Runtime) (fs : FS) (dir : String) (deltaBytes : Int) :
    (attempted (purge rt fs dir deltaBytes).2).Pairwise (fun a b => a.atime ≤ b.atime) ∧
      ∀ d ∈ deleted (purge rt fs dir deltaBytes).2,
        ∀ r ∈ (fs.after (purge rt fs dir deltaBytes).2).files,
          r ∉ attempted (purge rt fs dir deltaBytes).2 → ¬ d.atime > r.atime := by
  by_cases ho : fs.openErr = true
  · rw [purge_openErr rt fs dir deltaBytes ho]
    simp [attempted, deleted]
  by_cases hr : fs.readdirErr = true
  · rw [purge_readdirErr rt fs dir deltaBytes hr]
    simp [attempted, deleted]
  rw [purge_listed rt fs dir deltaBytes (by simpa using ho) (by simpa using hr)]
  have key := purgeLoop_oldest_first fs dir deltaBytes (rt.sortSlice fs.files) 0
    (sortSlice_sorted_atime rt fs.files)
  refine ⟨key.1, fun d hd r hr hnot => ?_⟩
  have hmem : r ∈ rt.sortSlice fs.files := by
    have : r ∈ fs.files := by
      simp only [FS.after, List.mem_filter] at hr
      exact hr.1
    exact (rt.sortSlice_perm fs.files).mem_iff.mpr this
  exact not_lt.mpr (key.2 d (deleted_subset_attempted _ d hd) r hmem hnot)

/-- The amended C5 on the directory whose oldest file cannot be removed. -/
theorem purge_oldest_first_witness :
    (attempted (purge amd64 stuckFS "/cache" 50).2).Pairwise (fun a b => a.atime ≤ b.atime) :=
  (purge_oldest_first amd64 stuckFS "/cache" 50).1

/-! ## C6: the reclaimed total -/

/-- C6, as stated, fails, in two ways.  With `deltaBytes = 0` the removal of
`a` fails and the scan ends right there, with `b` never tried: the stop test
after the first `os.Remove` ends the scan whatever the outcome.  And the total
is an `int64`: two files of `2 ^ 62` bytes sum to `2 ^ 63`, while `purge`
returns `MinInt64`. -/
theorem C6_scan_ends_counterexample :
    ((purge amd64 stuckFS "/cache" 0).2 = [(⟨"a", 100, 1⟩, false)] ∧
      (⟨"b", 100, 2⟩ : FileInfo) ∈ amd64.sortSlice stuckFS.files ∧
      (⟨"b", 100, 2⟩ : FileInfo) ∉ attempted (purge amd64 stuckFS "/cache" 0).2) ∧
    ((purge amd64 (okFS hugeFiles) "/cache" MaxInt64).1 = MinInt64 ∧
      ¬ ((purge amd64 (okFS hugeFiles) "/cache" MaxInt64).1
          = sizeSum (deleted (purge amd64 (okFS hugeFiles) "/cache" MaxInt64).2))) := by
  decide

/-- C6, amended: for every runtime and every listing whose sizes sum to at
most `MaxInt64`, every outcome of the deletions and every `deltaBytes`, the
value `purge` returns is the sum of the sizes of exactly the entries whose
`os.Remove` succeeded; for `deltaBytes > 0` a scan whose last attempt failed
went through the whole listing (a failed deletion does not end the scan); and
on its eviction path, for a `CurrSize()` that is an `int64` and stays one when
the whole listing is subtracted, `EnsureSpace` makes one `AddCurrSize` call,
with the negative of that sum, which is exactly the change of `CurrSize()`. -/
theorem purge_counts_deleted_only (rt : Runtime) (e : ensureSpacer) (cache : Cache) (fs : FS)
    (addBytes : Int)
    (htrig : pctBytes rt cache.MaxSize e.triggerPct ≤ add64 cache.CurrSize addBytes)
    (hflag : e.isPurging = false)
    (hsizes : sizeSum fs.files ≤ MaxInt64)
    (hcur : inInt64 cache.CurrSize)
    (hlow : MinInt64 ≤ cache.CurrSize - sizeSum fs.files) :
    (∀ dir deltaBytes,
        (purge rt fs dir deltaBytes).1 = sizeSum (deleted (purge rt fs dir deltaBytes).2)) ∧
      (∀ dir deltaBytes f, 0 < deltaBytes →
        (purge rt fs dir deltaBytes).2.getLast? = some (f, false) →
        attempted (purge rt fs dir deltaBytes).2 = rt.sortSlice fs.files) ∧
      (EnsureSpace rt e cache fs addBytes).cache.CurrSize
        = cache.CurrSize - sizeSum (deleted (EnsureSpace rt e cache fs addBytes).removes) ∧
      (EnsureSpace rt e cache fs addBytes).cache.addCalls
        = cache.addCalls
          ++ [- sizeSum (deleted (EnsureSpace rt e cache fs addBytes).removes)] := by
  have hsorted : sizeSum (rt.sortSlice fs.files) ≤ MaxInt64 := by
    rw [sizeSum_perm (rt.sortSlice_perm fs.files)]; exact hsizes
  have hsum : ∀ dir deltaBytes,
      (purge rt fs dir deltaBytes).1 = sizeSum (deleted (purge rt fs dir deltaBytes).2) := by
    intro dir d
    unfold purge
    split_ifs
    · simp [deleted, sizeSum]
    · simp [deleted, sizeSum]
    · exact purgeLoop_total fs dir d _ hsorted
  have hbound : ∀ dir deltaBytes,
      0 ≤ sizeSum (deleted (purge rt fs dir deltaBytes).2) ∧
        sizeSum (deleted (purge rt fs dir deltaBytes).2) ≤ sizeSum fs.files := by
    intro dir d
    refine ⟨sizeSum_nonneg _, ?_⟩
    unfold purge
    split_ifs
    · simpa [deleted, sizeSum] using sizeSum_nonneg fs.files
    · simpa [deleted, sizeSum] using sizeSum_nonneg fs.files
    · rw [← sizeSum_perm (rt.sortSlice_perm fs.files)]
      exact purgeLoop_deleted_le fs dir d _ 0
  have hneg : ∀ dir deltaBytes, neg64 (purge rt fs dir deltaBytes).1
      = - sizeSum (deleted (purge rt fs dir deltaBytes).2) := by
    intro dir d
    rw [hsum]
    obtain ⟨h1, h2⟩ := hbound dir d
    unfold neg64
    apply wrap64_of_inInt64
    simp only [inInt64, MinInt64, MaxInt64] at hsizes ⊢
    constructor <;> omega
  refine ⟨hsum, ?_, ?_, ?_⟩
  · intro dir d f hpos hlast
    unfold purge at hlast ⊢
    split_ifs at hlast ⊢
    · simp at hlast
    · simp at hlast
    · exact purgeLoop_last_failed fs dir d _ 0 f hpos hlast
  · rw [EnsureSpace_evict rt e cache fs addBytes htrig hflag]
    simp only [Cache.AddCurrSize, Cache.CurrSize]
    rw [hneg]
    obtain ⟨h1, h2⟩ := hbound cache.Dir
      (sub64 cache.CurrSize (pctBytes rt cache.MaxSize e.targetPct))
    unfold add64
    rw [wrap64_of_inInt64]
    · rfl
    · simp only [Cache.CurrSize, inInt64, MinInt64, MaxInt64] at hcur hlow h1 h2 ⊢
      constructor <;> omega
  · rw [EnsureSpace_evict rt e cache fs addBytes htrig hflag]
    simp only [Cache.AddCurrSize]
    rw [hneg]

/-- The amended C6 on the directory whose oldest file cannot be removed. -/
theorem purge_counts_deleted_only_witness :
    (purge amd64 stuckFS "/cache" 50).1 = sizeSum (deleted (purge amd64 stuckFS "/cache" 50).2) ∧
      (EnsureSpace amd64 scenarioSpacer ⟨950, 1000, "/cache", []⟩ stuckFS 0).cache.addCalls
        = [] ++ [- sizeSum (deleted
            (EnsureSpace amd64 scenarioSpacer ⟨950, 1000, "/cache", []⟩ stuckFS 0).removes)] :=
  ⟨(purge_counts_deleted_only amd64 scenarioSpacer ⟨950, 1000, "/cache", []⟩ stuckFS 0
      (by decide) rfl (by decide) (by decide) (by decide)).1 "/cache" 50,
   (purge_counts_deleted_only amd64 scenarioSpacer ⟨950, 1000, "/cache", []⟩ stuckFS 0
      (by decide) rfl (by decide) (by decide) (by decide)).2.2.2⟩

/-! ## C10: where the scan stops -/

/-- C10: for every runtime, a listing that could be read and `deltaBytes > 0`,
the entries attempted are an initial segment of the access-time order, each
with the outcome of its `os.Remove`; the value returned is the running total
of the deletions made; as long as an attempt was still to follow, the running
total was below `deltaBytes` (the scan never goes on past the first point where
the total reaches `deltaBytes`); and either every entry of the listing was
attempted, or the returned total is at least `deltaBytes`, the last attempt was
a successful deletion, and the total before it was below `deltaBytes`. -/
theorem purge_stops_when_reached (rt : Runtime) (fs : FS) (dir : String) (deltaBytes : Int)
    (hpos : 0 < deltaBytes) (ho : fs.openErr = false) (hr : fs.readdirErr = false) :
    ∃ rest, rt.sortSlice fs.files = attempted (purge rt fs dir deltaBytes).2 ++ rest ∧
      (∀ x ∈ (purge rt fs dir deltaBytes).2,
        x.2 = !fs.removeErr (joinPath dir x.1.name)) ∧
      (purge rt fs dir deltaBytes).1 = runningTotal 0 (purge rt fs dir deltaBytes).2 ∧
      (∀ pre suf, (purge rt fs dir deltaBytes).2 = pre ++ suf → suf ≠ [] →
        runningTotal 0 pre < deltaBytes) ∧
      (rest = [] ∨
        (deltaBytes ≤ (purge rt fs dir deltaBytes).1 ∧
          ∃ pre f, (purge rt fs dir deltaBytes).2 = pre ++ [(f, true)] ∧
            runningTotal 0 pre < deltaBytes)) := by
  rw [purge_listed rt fs dir deltaBytes ho hr]
  obtain ⟨rest, hrest⟩ :=
    purgeLoop_attempted_initial fs dir deltaBytes (rt.sortSlice fs.files) 0
  have hbelow := purgeLoop_below_until_last fs dir deltaBytes (rt.sortSlice fs.files) 0 hpos
  refine ⟨rest, hrest, purgeLoop_flags fs dir deltaBytes _ 0,
    purgeLoop_running fs dir deltaBytes _ 0, hbelow, ?_⟩
  rcases purgeLoop_stop fs dir deltaBytes (rt.sortSlice fs.files) 0 hpos with h | ⟨h1, pre, f, h2⟩
  · left
    have h2 : attempted (purgeLoop fs dir deltaBytes (rt.sortSlice fs.files) 0).2 ++ rest
        = attempted (purgeLoop fs dir deltaBytes (rt.sortSlice fs.files) 0).2 ++ [] := by
      rw [← hrest, List.append_nil, h]
    exact List.append_cancel_left h2
  · right
    exact ⟨h1, pre, f, h2, hbelow pre [(f, true)] h2 (by simp)⟩

/-- C10 on five 100-byte files with 250 bytes requested: `a`, `b`, `c` are
removed and `d`, `e` are left. -/
theorem purge_stops_when_reached_witness :
    ∃ rest, amd64.sortSlice (okFS fiveFiles).files
        = attempted (purge amd64 (okFS fiveFiles) "/cache" 250).2 ++ rest ∧
      (∀ x ∈ (purge amd64 (okFS fiveFiles) "/cache" 250).2,
        x.2 = !(okFS fiveFiles).removeErr (joinPath "/cache" x.1.name)) ∧
      (purge amd64 (okFS fiveFiles) "/cache" 250).1
        = runningTotal 0 (purge amd64 (okFS fiveFiles) "/cache" 250).2 ∧
      (∀ pre suf, (purge amd64 (okFS fiveFiles) "/cache" 250).2 = pre ++ suf → suf ≠ [] →
        runningTotal 0 pre < 250) ∧
      (rest = [] ∨
        ((250 : Int) ≤ (purge amd64 (okFS fiveFiles) "/cache" 250).1 ∧
          ∃ pre f, (purge amd64 (okFS fiveFiles) "/cache" 250).2 = pre ++ [(f, true)] ∧
            runningTotal 0 pre < 250)) :=
  purge_stops_when_reached amd64 (okFS fiveFiles) "/cache" 250 (by decide) rfl rfl

/-! ## C8: reaching the target -/

/-- C8, as stated, fails: in the spec's scenario with a directory that cannot
be listed, the trigger condition holds, no pass is in flight, no deletion
fails and the entries hold 500 bytes, at least `800 - 500`; yet `CurrSize()`
stays at 800, above the target 500. -/
theorem C8_unlisted_counterexample :
    pctBytes amd64 1000 scenarioSpacer.triggerPct ≤ add64 800 150 ∧
      scenarioSpacer.isPurging = false ∧
      (∀ f ∈ unreadableFS.files, unreadableFS.removeErr (joinPath "/cache" f.name) = false) ∧
      sub64 800 (pctBytes amd64 1000 scenarioSpacer.targetPct) ≤ sizeSum unreadableFS.files ∧
      ¬ ((EnsureSpace amd64 scenarioSpacer ⟨800, 1000, "/cache", []⟩
            unreadableFS 150).cache.CurrSize
          ≤ pctBytes amd64 1000 scenarioSpacer.targetPct) := by
  decide

/-- C8, amended: for every runtime, when the trigger condition holds, no pass
is in flight, the directory can be listed, every deletion succeeds, the
entries' sizes sum to at least
`CurrSize() - int64(float64(MaxSize()) * targetPct)`, and no `int64` operation
of the pass overflows (`CurrSize()` is an `int64` and stays one when the target
or the whole listing is subtracted, and the listing sums to at most
`MaxInt64`), `CurrSize()` is at most the target after `EnsureSpace` returns;
and in the spec's scenario (`MaxSize = 1000`, trigger 0.9, target 0.5,
`CurrSize = 800`, `addBytes = 150`, 100-byte files) the three oldest files go,
`CurrSize()` ends at 500 and the call returns `true`. -/
theorem EnsureSpace_reaches_target (rt : Runtime) (e : ensureSpacer) (cache : Cache) (fs : FS)
    (addBytes : Int)
    (htrig : pctBytes rt cache.MaxSize e.triggerPct ≤ add64 cache.CurrSize addBytes)
    (hflag : e.isPurging = false)
    (ho : fs.openErr = false) (hr : fs.readdirErr = false)
    (hok : ∀ f ∈ fs.files, fs.removeErr (joinPath cache.Dir f.name) = false)
    (henough : cache.CurrSize - pctBytes rt cache.MaxSize e.targetPct ≤ sizeSum fs.files)
    (hcur : inInt64 cache.CurrSize)
    (hdelta : MinInt64 ≤ cache.CurrSize - pctBytes rt cache.MaxSize e.targetPct)
    (hsizes : sizeSum fs.files ≤ MaxInt64)
    (hlow : MinInt64 ≤ cache.CurrSize - sizeSum fs.files) :
    (EnsureSpace rt e cache fs addBytes).cache.CurrSize
        ≤ pctBytes rt cache.MaxSize e.targetPct ∧
      ((EnsureSpace amd64 scenarioSpacer ⟨800, 1000, "/cache", []⟩ (okFS fiveFiles) 150).removes
          = [(⟨"a", 100, 1⟩, true), (⟨"b", 100, 2⟩, true), (⟨"c", 100, 3⟩, true)] ∧
        (EnsureSpace amd64 scenarioSpacer ⟨800, 1000, "/cache", []⟩
            (okFS fiveFiles) 150).cache.CurrSize = 500 ∧
        (EnsureSpace amd64 scenarioSpacer ⟨800, 1000, "/cache", []⟩ (okFS fiveFiles) 150).ret
          = true) := by
  refine ⟨?_, by decide⟩
  rw [EnsureSpace_evict rt e cache fs addBytes htrig hflag]
  simp only [Cache.AddCurrSize, Cache.CurrSize] at henough hcur hdelta hlow ⊢
  have hd : sub64 cache.currSize (pctBytes rt cache.MaxSize e.targetPct)
      = cache.currSize - pctBytes rt cache.MaxSize e.targetPct := by
    unfold sub64
    apply wrap64_of_inInt64
    simp only [inInt64, MinInt64, MaxInt64] at hdelta hsizes ⊢
    constructor <;> omega
  rw [hd, purge_listed rt fs cache.Dir _ ho hr]
  have hperm := sizeSum_perm (rt.sortSlice_perm fs.files)
  have hok' : ∀ f ∈ rt.sortSlice fs.files, fs.removeErr (joinPath cache.Dir f.name) = false :=
    fun f hf => hok f ((rt.sortSlice_perm fs.files).mem_iff.mp hf)
  have htot := purgeLoop_total fs cache.Dir
    (cache.currSize - pctBytes rt cache.MaxSize e.targetPct) (rt.sortSlice fs.files)
    (by rw [hperm]; exact hsizes)
  have hle := purgeLoop_deleted_le fs cache.Dir
    (cache.currSize - pctBytes rt cache.MaxSize e.targetPct) (rt.sortSlice fs.files) 0
  have hnn := sizeSum_nonneg (deleted (purgeLoop fs cache.Dir
    (cache.currSize - pctBytes rt cache.MaxSize e.targetPct) (rt.sortSlice fs.files) 0).2)
  have hall := purgeLoop_all_deleted fs cache.Dir
    (cache.currSize - pctBytes rt cache.MaxSize e.targetPct) (rt.sortSlice fs.files) 0 hok'
  -- the pass reclaims at least what was asked for
  have hreach : cache.currSize - pctBytes rt cache.MaxSize e.targetPct
      ≤ (purgeLoop fs cache.Dir (cache.currSize - pctBytes rt cache.MaxSize e.targetPct)
          (rt.sortSlice fs.files) 0).1 := by
    by_cases hpos : 0 < cache.currSize - pctBytes rt cache.MaxSize e.targetPct
    · rcases purgeLoop_stop fs cache.Dir _ (rt.sortSlice fs.files) 0 hpos with h | ⟨h, _⟩
      · rw [htot, hall, h, hperm]
        exact henough
      · exact h
    · rw [htot]; omega
  rw [htot] at hreach ⊢
  rw [hperm] at hle
  have hneg : neg64 (sizeSum (deleted (purgeLoop fs cache.Dir
      (cache.currSize - pctBytes rt cache.MaxSize e.targetPct) (rt.sortSlice fs.files) 0).2))
      = - sizeSum (deleted (purgeLoop fs cache.Dir
        (cache.currSize - pctBytes rt cache.MaxSize e.targetPct)
        (rt.sortSlice fs.files) 0).2) := by
    unfold neg64
    apply wrap64_of_inInt64
    simp only [inInt64, MinInt64, MaxInt64] at hsizes ⊢
    constructor <;> omega
  rw [hneg]
  unfold add64
  rw [wrap64_of_inInt64]
  · omega
  · simp only [inInt64, MinInt64, MaxInt64] at hcur hlow ⊢
    constructor <;> omega

/-- The amended C8 in the spec's scenario. -/
theorem EnsureSpace_reaches_target_witness :
    (EnsureSpace amd64 scenarioSpacer ⟨800, 1000, "/cache", []⟩ (okFS fiveFiles) 150).cache.CurrSize
      ≤ pctBytes amd64 1000 scenarioSpacer.targetPct :=
  (EnsureSpace_reaches_target amd64 scenarioSpacer ⟨800, 1000, "/cache", []⟩ (okFS fiveFiles) 150
    (by decide) rfl rfl rfl (by decide) (by decide) (by decide) (by decide) (by decide)
    (by decide)).1

/-! ## C7: single flight -/

/-- C7: with the purging flag set, `EnsureSpace` starts no pass, for every
runtime, cache state and `addBytes`: it calls `os.Remove` on nothing, leaves
the directory and the cache (so `CurrSize()` and the `AddCurrSize` history)
untouched, leaves the flag set, and when the trigger condition holds returns
exactly whether `CurrSize() + addBytes <= MaxSize()`, both sides as the code
computes them in `int64`; when the sum does not overflow, these are the
comparisons of the integers themselves. -/
theorem EnsureSpace_single_flight (rt : Runtime) (e : ensureSpacer) (cache : Cache) (fs : FS)
    (addBytes : Int) (hflag : e.isPurging = true) :
    (EnsureSpace rt e cache fs addBytes).removes = [] ∧
      (EnsureSpace rt e cache fs addBytes).fs.files = fs.files ∧
      (EnsureSpace rt e cache fs addBytes).cache = cache ∧
      (EnsureSpace rt e cache fs addBytes).spacer.isPurging = true ∧
      (pctBytes rt cache.MaxSize e.triggerPct ≤ add64 cache.CurrSize addBytes →
        (EnsureSpace rt e cache fs addBytes).ret
          = decide (add64 cache.CurrSize addBytes ≤ cache.MaxSize)) ∧
      (inInt64 (cache.CurrSize + addBytes) →
        pctBytes rt cache.MaxSize e.triggerPct ≤ cache.CurrSize + addBytes →
        (EnsureSpace rt e cache fs addBytes).ret
          = decide (cache.CurrSize + addBytes ≤ cache.MaxSize)) := by
  have hwrapped : pctBytes rt cache.MaxSize e.triggerPct ≤ add64 cache.CurrSize addBytes →
      (EnsureSpace rt e cache fs addBytes).ret
        = decide (add64 cache.CurrSize addBytes ≤ cache.MaxSize) := by
    intro h
    rw [EnsureSpace_in_flight rt e cache fs addBytes h hflag]
  have hexact : inInt64 (cache.CurrSize + addBytes) →
      pctBytes rt cache.MaxSize e.triggerPct ≤ cache.CurrSize + addBytes →
      (EnsureSpace rt e cache fs addBytes).ret
        = decide (cache.CurrSize + addBytes ≤ cache.MaxSize) := by
    intro hrange h
    have hw : add64 cache.CurrSize addBytes = cache.CurrSize + addBytes :=
      wrap64_of_inInt64 _ hrange
    rw [← hw] at h ⊢
    exact hwrapped h
  by_cases h : pctBytes rt cache.MaxSize e.triggerPct ≤ add64 cache.CurrSize addBytes
  · rw [EnsureSpace_in_flight rt e cache fs addBytes h hflag] at hwrapped hexact ⊢
    exact ⟨rfl, rfl, rfl, hflag, hwrapped, hexact⟩
  · rw [EnsureSpace_below rt e cache fs addBytes (not_le.mp h)] at hwrapped hexact ⊢
    exact ⟨rfl, rfl, rfl, hflag, hwrapped, hexact⟩

/-- C7 at `CurrSize = 950`, `addBytes = 100` with a pass in flight. -/
theorem EnsureSpace_single_flight_witness :
    (EnsureSpace amd64 busySpacer ⟨950, 1000, "/cache", []⟩
        (okFS fiveFiles) 100).removes = [] ∧
      (EnsureSpace amd64 busySpacer ⟨950, 1000, "/cache", []⟩ (okFS fiveFiles) 100).ret
        = false :=
  ⟨(EnsureSpace_single_flight amd64 busySpacer ⟨950, 1000, "/cache", []⟩
      (okFS fiveFiles) 100 rfl).1,
   ((EnsureSpace_single_flight amd64 busySpacer ⟨950, 1000, "/cache", []⟩
      (okFS fiveFiles) 100 rfl).2.2.2.2.2 (by decide) (by decide)).trans (by decide)⟩

/-! ## C9: the listing fails -/

/-- C9: for every runtime, when the trigger condition holds, no pass is in
flight and listing the directory fails (`os.Open` or `Readdir` returns an
error), `purge` returns 0, no `os.Remove` is called, the directory and
`CurrSize()` (an `int64`) are unchanged, and `EnsureSpace` returns whether the
unchanged `CurrSize() + addBytes` is at most `MaxSize()`, the sum as the code
computes it in `int64`, which is the sum of the integers themselves when that
does not overflow; being a total function it raises nothing. -/
theorem EnsureSpace_listing_fails (rt : Runtime) (e : ensureSpacer) (cache : Cache) (fs : FS)
    (addBytes : Int)
    (htrig : pctBytes rt cache.MaxSize e.triggerPct ≤ add64 cache.CurrSize addBytes)
    (hflag : e.isPurging = false)
    (hlist : fs.openErr = true ∨ fs.readdirErr = true)
    (hcur : inInt64 cache.CurrSize) :
    (∀ deltaBytes, purge rt fs cache.Dir deltaBytes = (0, [])) ∧
      (EnsureSpace rt e cache fs addBytes).removes = [] ∧
      (EnsureSpace rt e cache fs addBytes).fs.files = fs.files ∧
      (EnsureSpace rt e cache fs addBytes).cache.CurrSize = cache.CurrSize ∧
      (EnsureSpace rt e cache fs addBytes).ret
        = decide (add64 cache.CurrSize addBytes ≤ cache.MaxSize) ∧
      (inInt64 (cache.CurrSize + addBytes) →
        (EnsureSpace rt e cache fs addBytes).ret
          = decide (cache.CurrSize + addBytes ≤ cache.MaxSize)) := by
  have hp : ∀ deltaBytes, purge rt fs cache.Dir deltaBytes = (0, []) := by
    intro d
    rcases hlist with h | h
    · exact purge_openErr rt fs _ d h
    · exact purge_readdirErr rt fs _ d h
  have hsame : add64 cache.currSize (neg64 0) = cache.currSize := by
    have h0 : neg64 0 = 0 := by decide
    rw [h0]
    unfold add64
    rw [add_zero]
    exact wrap64_of_inInt64 _ hcur
  have hret : (EnsureSpace rt e cache fs addBytes).ret
      = decide (add64 cache.CurrSize addBytes ≤ cache.MaxSize) := by
    rw [EnsureSpace_evict rt e cache fs addBytes htrig hflag, hp]
    simp only [Cache.AddCurrSize, Cache.CurrSize, hsame]
  refine ⟨hp, ?_, ?_, ?_, hret, ?_⟩
  · rw [EnsureSpace_evict rt e cache fs addBytes htrig hflag, hp]
  · rw [EnsureSpace_evict rt e cache fs addBytes htrig hflag, hp]
    exact after_nil fs
  · rw [EnsureSpace_evict rt e cache fs addBytes htrig hflag, hp]
    simp only [Cache.AddCurrSize, Cache.CurrSize, hsame]
  · intro hrange
    rw [hret]
    unfold add64
    rw [wrap64_of_inInt64 _ hrange]

/-- C9 at `CurrSize = 950`, `addBytes = 100` on an unreadable directory. -/
theorem EnsureSpace_listing_fails_witness :
    (EnsureSpace amd64 scenarioSpacer ⟨950, 1000, "/cache", []⟩
        unreadableFS 100).cache.CurrSize = 950 ∧
      (EnsureSpace amd64 scenarioSpacer ⟨950, 1000, "/cache", []⟩ unreadableFS 100).ret = false :=
  ⟨(EnsureSpace_listing_fails amd64 scenarioSpacer ⟨950, 1000, "/cache", []⟩ unreadableFS 100
      (by decide) rfl (Or.inl rfl) (by decide)).2.2.2.1,
   ((EnsureSpace_listing_fails amd64 scenarioSpacer ⟨950, 1000, "/cache", []⟩ unreadableFS 100
      (by decide) rfl (Or.inl rfl) (by decide)).2.2.2.2.2 (by decide)).trans (by decide)⟩

end cache
